import Mathlib

/-!
Verification of the MUS (monetary unit sampling) planning and extraction engine
of the Audit_Sampling repository, by shallow embedding of `src/lib.rs`
(`mus_planning`, `mus_extraction` and their numeric helpers) and of
`pps_systematic_indices` from `src/sampling.rs`.

Modelling conventions:
* `f64` values are modelled by the inductive type `F`: a finite value is an
  exact rational, and the special values NaN, +infinity and -infinity are
  separate constructors.  Finite-value arithmetic is exact (rounding error of
  the binary floating point format is idealised away); the propagation and
  comparison rules for the special values follow IEEE-754 as implemented by
  Rust `f64`.
* The hypergeometric CDF used through `statrs` is the exact rational
  hypergeometric CDF.
* The Gamma inverse CDF used through `statrs` is transcendental and is
  modelled as an explicit function parameter `gq : ℚ → ℚ → ℚ`
  (`gq shape p` stands for `Gamma::new(shape, 1.0).inverse_cdf(p)`).
* The seeded random draw `StdRng::seed_from_u64(seed).random_range(0.0..=interval)`
  is a deterministic function of seed and interval in Rust; it is modelled as
  an explicit function parameter `rngDraw : ℕ → F → F`.  The time-derived
  fallback seed is modelled as an explicit parameter `timeSeed : ℕ`.
* Source loops without an intrinsic structural bound (the crossing-search
  loop in `mus_planning` and the interval-stabilisation loop in
  `mus_extraction`) are modelled with an explicit fuel parameter; running out
  of fuel yields a distinguished `calculation` error that the real program
  (which would keep looping) never returns, and theorems quantify over fuel.
* `eprintln!` warnings have no effect on control flow or results; the scan of
  the book values that decides the three value warnings is modelled by
  `valueFlags`.  The `too_large` warning condition (which involves `sqrt` and
  affects nothing) is not modelled.
-/

-- The Batteries rational arithmetic is `@[irreducible]`, which blocks the
-- kernel evaluation that the closed, fully concrete theorems below rely on.
attribute [local semireducible] Rat.add Rat.mul Rat.inv Rat.sub

namespace AuditSampling

/-- Model of a Rust `f64`: an exact rational, or one of the special values. -/
inductive F where
  | fin (q : ℚ)
  | nan
  | inf
  | ninf
  deriving DecidableEq, Repr

namespace F

/-- `f64::is_finite` (false on NaN and the infinities). -/
def isFiniteB : F → Bool
  | fin _ => true
  | _ => false

/-- IEEE `<` as a Bool: any comparison with NaN is false. -/
def blt : F → F → Bool
  | fin a, fin b => a < b
  | fin _, inf => true
  | ninf, fin _ => true
  | ninf, inf => true
  | _, _ => false

/-- IEEE `<=` as a Bool: any comparison with NaN is false. -/
def ble : F → F → Bool
  | fin a, fin b => a ≤ b
  | fin _, inf => true
  | ninf, fin _ => true
  | ninf, inf => true
  | inf, inf => true
  | ninf, ninf => true
  | _, _ => false

/-- IEEE addition on the model. -/
def add : F → F → F
  | fin a, fin b => fin (a + b)
  | nan, _ => nan
  | _, nan => nan
  | inf, ninf => nan
  | ninf, inf => nan
  | inf, _ => inf
  | _, inf => inf
  | ninf, _ => ninf
  | _, ninf => ninf

/-- IEEE subtraction on the model. -/
def sub : F → F → F
  | fin a, fin b => fin (a - b)
  | nan, _ => nan
  | _, nan => nan
  | inf, inf => nan
  | ninf, ninf => nan
  | inf, _ => inf
  | _, inf => ninf
  | ninf, _ => ninf
  | _, ninf => inf

/-- IEEE multiplication on the model (infinity times zero is NaN). -/
def mul : F → F → F
  | fin a, fin b => fin (a * b)
  | nan, _ => nan
  | _, nan => nan
  | inf, inf => inf
  | inf, ninf => ninf
  | ninf, inf => ninf
  | ninf, ninf => inf
  | inf, fin b => if b = 0 then nan else if 0 < b then inf else ninf
  | fin a, inf => if a = 0 then nan else if 0 < a then inf else ninf
  | ninf, fin b => if b = 0 then nan else if 0 < b then ninf else inf
  | fin a, ninf => if a = 0 then nan else if 0 < a then ninf else inf

/-- IEEE division on the model (zero signs are idealised: finite / 0 with a
nonzero numerator follows the numerator's sign as if the zero were +0.0,
matching every division the source performs). -/
def div : F → F → F
  | fin a, fin b =>
      if b = 0 then (if a = 0 then nan else if 0 < a then inf else ninf)
      else fin (a / b)
  | nan, _ => nan
  | _, nan => nan
  | inf, inf => nan
  | inf, ninf => nan
  | ninf, inf => nan
  | ninf, ninf => nan
  | inf, fin b => if 0 ≤ b then inf else ninf
  | ninf, fin b => if 0 ≤ b then ninf else inf
  | fin _, inf => fin 0
  | fin _, ninf => fin 0

/-- Rust `f64::max(self, 0.0)`: returns the other operand when one is NaN. -/
def maxZero : F → F
  | fin a => fin (max a 0)
  | nan => fin 0
  | inf => inf
  | ninf => fin 0

/-- IEEE absolute value. -/
def fabs : F → F
  | fin a => fin |a|
  | nan => nan
  | inf => inf
  | ninf => inf

/-- Rust `f64::round`: round to nearest, ties away from zero; NaN and the
infinities are returned unchanged. -/
def roundR : F → F
  | fin a => fin (if 0 ≤ a then ((a + 1/2 : ℚ).floor : ℚ) else ((a - 1/2 : ℚ).ceil : ℚ))
  | nan => nan
  | inf => inf
  | ninf => ninf

/-- The rational value of a finite `F` (0 on the special values; only applied
once finiteness has been established by a source guard). -/
def toRat : F → ℚ
  | fin a => a
  | _ => 0

end F

/-- `u64::MAX`, the saturation bound of Rust `as u64` casts and
`u64::saturating_add`. -/
def U64MAX : ℕ := 2 ^ 64 - 1

/-- Rust `x as u64` applied to an f64 (saturating; NaN maps to 0). -/
def castU64 : F → ℕ
  | F.fin a => min U64MAX (max 0 a.floor).toNat
  | F.nan => 0
  | F.inf => U64MAX
  | F.ninf => 0

/-- `round_to_u64` from `src/lib.rs`: round, then clamp negatives to 0 and
cast to `u64`. -/
def round_to_u64 (x : F) : ℕ :=
  let r := x.roundR
  if r.blt (F.fin 0) then 0 else castU64 r

/-- `u64::saturating_add`. -/
def satAdd64 (a b : ℕ) : ℕ := min (a + b) U64MAX

/-- `sum_nonneg` from `src/lib.rs`: fold of IEEE addition over
`v.max(0.0)`, starting from 0.0. -/
def sum_nonneg (values : List F) : F :=
  values.foldl (fun acc v => acc.add v.maxZero) (F.fin 0)

/-- Plain `f64` sum (`.iter().sum::<f64>()`). -/
def sumF (values : List F) : F :=
  values.foldl (fun acc v => acc.add v) (F.fin 0)

/-- Sum of the positive finite book values of a population: the value
`sum_nonneg` computes whenever no `+inf` entry is present. -/
def posSum (values : List F) : ℚ :=
  values.foldl (fun acc v => acc + (v.maxZero).toRat) 0

/-- The scan of `mus_planning` (src/lib.rs lines 200-212) that decides the
three warnings: (has non-finite values, has zeros, has negatives). -/
def valueFlags (values : List F) : Bool × Bool × Bool :=
  values.foldl
    (fun acc v =>
      (acc.1 || !v.isFiniteB,
       acc.2.1 || v == F.fin 0,
       acc.2.2 || v.blt (F.fin 0)))
    (false, false, false)

/-- Error taxonomy of the library (`MusError` in `src/lib.rs`). -/
inductive MusError where
  | invalidInput (msg : String)
  | calculation (msg : String)
  deriving DecidableEq, Repr

/-- True when a result is a success. -/
def isOkB {α : Type} : Except MusError α → Bool
  | Except.ok _ => true
  | Except.error _ => false

/-- True when a result is an `InvalidInput` failure. -/
def isInvalidInputB {α : Type} : Except MusError α → Bool
  | Except.error (MusError.invalidInput _) => true
  | _ => false

/-- True when a result is a `Calculation` failure. -/
def isCalculationB {α : Type} : Except MusError α → Bool
  | Except.error (MusError.calculation _) => true
  | _ => false

/-- The message of a failure result. -/
def errorMessage {α : Type} : Except MusError α → Option String
  | Except.error (MusError.invalidInput m) => some m
  | Except.error (MusError.calculation m) => some m
  | Except.ok _ => none

/-- `PlanningOptions` from `src/lib.rs`. -/
structure PlanningOptions where
  col_name_book_values : String
  confidence_level : F
  tolerable_error : F
  expected_error : F
  n_min : ℕ
  errors_as_pct : Bool
  conservative : Bool
  combined : Bool
  deriving DecidableEq, Repr

/-- `Plan` from `src/lib.rs`. -/
structure Plan where
  data : List F
  col_name_book_values : String
  confidence_level : F
  tolerable_error : F
  expected_error : F
  book_value : F
  n : ℕ
  high_value_threshold : F
  tolerable_taintings : F
  combined : Bool
  deriving DecidableEq, Repr

/-- `ExtractionOptions` from `src/lib.rs`.  The seed is a `u64`; it is
modelled as a natural number. -/
structure ExtractionOptions where
  start_point : Option F
  seed : Option ℕ
  obey_n_as_min : Bool
  combined : Bool
  deriving DecidableEq, Repr

/-- `ExtractedItem` from `src/lib.rs` (`mus_hit`, `cum_before`, `cum_after`
are `u64` monetary-unit counters). -/
structure ExtractedItem where
  book_value : F
  mus_hit : ℕ
  cum_before : ℕ
  cum_after : ℕ
  deriving DecidableEq, Repr

/-- `Extraction` from `src/lib.rs`. -/
structure Extraction where
  plan : Plan
  start_point : F
  seed : Option ℕ
  obey_n_as_min : Bool
  high_values : List F
  sample_population : List (F × ℕ)
  sampling_interval : F
  sample : List ExtractedItem
  extensions : ℕ
  n_qty : List ℕ
  combined : Bool
  deriving DecidableEq, Repr

/-- Exact hypergeometric CDF: for a population of `m` "success" units and
`nb` other units, `hgCdf q m nb k` is `P[X <= q]` for `X` the number of
successes among `k` draws without replacement.  This is the mathematical
function that `statrs::distribution::Hypergeometric::cdf` computes. -/
def hgCdf (q m nb k : ℕ) : ℚ :=
  (((List.range (min q k + 1)).map
      (fun x => ((m.choose x * nb.choose (k - x) : ℕ) : ℚ))).sum) /
    ((m + nb).choose k : ℚ)

/-- The binary-search loop of `min_draws_for_cdf_at_most_q`
(src/lib.rs lines 119-134), searching the smallest `k` with
`CDF(q; k) <= alpha`.  The Rust `lo`/`hi` cursors are `u64` with `hi`
handled so it never underflows (the `mid == 0` break).  The loop always
terminates because the interval shrinks; the structural `fuel` argument is
always supplied with the sufficient value `hi + 2` by `min_draws`.  On the
(unreachable) exhaustion of fuel the current `ans` is returned. -/
def bsLoop (q : ℕ) (alpha : ℚ) (m nb : ℕ) :
    ℕ → ℕ → ℕ → Option ℕ → Option ℕ
  | 0, _, _, ans => ans
  | fuel + 1, lo, hi, ans =>
    if lo ≤ hi then
      let mid := lo + (hi - lo) / 2
      if hgCdf q m nb mid ≤ alpha then
        if mid = 0 then some 0
        else bsLoop q alpha m nb fuel lo (mid - 1) (some mid)
      else bsLoop q alpha m nb fuel (mid + 1) hi ans
    else ans

/-- `min_draws_for_cdf_at_most_q` from `src/lib.rs`. -/
def min_draws_for_cdf_at_most_q (q : ℕ) (alpha : ℚ) (m nb k_max : ℕ) :
    Except MusError ℕ :=
  let n_total := m + nb
  if n_total = 0 then
    Except.error (MusError.calculation ("population size is zero"))
  else
    let hi := min k_max n_total
    Except.ok ((bsLoop q alpha m nb (hi + 2) 0 hi none).getD (min k_max n_total))

/-- `calculate_n_hyper` from `src/lib.rs`.  The `alpha`, `tolerable_error`
and `account_value` arguments are `f64` in the source and keep their `F`
type here so that the finiteness guards are faithful. -/
def calculate_n_hyper (num_errors : ℕ) (alpha te av : F) :
    Except MusError ℕ :=
  if ¬(alpha.isFiniteB = true ∧ (F.fin 0).blt alpha = true ∧
        alpha.blt (F.fin 1) = true) then
    Except.error (MusError.invalidInput ("alpha must be in (0,1)"))
  else if ¬(te.isFiniteB = true ∧ av.isFiniteB = true ∧
        (F.fin 0).blt av = true) then
    Except.error (MusError.invalidInput
      ("tolerable_error and account_value must be finite and > 0"))
  else
    let a := alpha.toRat
    let t := te.toRat
    let v := av.toRat
    let max_error_rate := t / v
    let m := round_to_u64 (F.fin (max_error_rate * v))
    let n_black := round_to_u64 (F.fin ((1 - max_error_rate) * v))
    let k_upper := min (n_black + num_errors) (round_to_u64 (F.fin v))
    min_draws_for_cdf_at_most_q num_errors a m n_black k_upper

/-- One pass of the fixed-point loop of `mus_factor` (src/lib.rs lines
173-181), iterating `f := gq (1 + ratio * f) c` until two successive values
differ by at most 1e-6.  The source caps the loop at 1000 iterations and
fails with a `Calculation` error on exhaustion; the fuel argument is that
cap. -/
def musFactorIter (gq : ℚ → ℚ → ℚ) (c r : ℚ) : ℕ → ℚ → Except MusError ℚ
  | 0, _ => Except.error (MusError.calculation ("MUS.factor iteration did not converge"))
  | fuel + 1, f =>
    let f2 := gq (1 + r * f) c
    if |f2 - f| ≤ 1 / 1000000 then Except.ok f2
    else musFactorIter gq c r fuel f2

/-- `mus_factor` from `src/lib.rs`.  `gq shape p` models
`Gamma::new(shape, 1.0).inverse_cdf(p)` (the `Gamma::new` failure for a
non-positive shape cannot occur for a genuine quantile function and is not
modelled). -/
def mus_factor (gq : ℚ → ℚ → ℚ) (confidence_level pct_ratio : F) :
    Except MusError ℚ :=
  if ¬((F.fin 0).blt confidence_level = true ∧
        confidence_level.blt (F.fin 1) = true) then
    Except.error (MusError.invalidInput ("confidence_level must be in (0,1)"))
  else if ¬((F.fin 0).ble pct_ratio = true ∧ pct_ratio.blt (F.fin 1) = true) then
    Except.error (MusError.invalidInput ("pct_ratio must be in [0,1)"))
  else
    let c := confidence_level.toRat
    if pct_ratio == F.fin 0 then Except.ok (gq 1 c)
    else musFactorIter gq c pct_ratio.toRat 1000 (gq 1 c)

/-- Rust `x.ceil() as usize` applied to an f64 (saturating; NaN maps to 0). -/
def ceilCastUsize : F → ℕ
  | F.fin a => if a.ceil < 0 then 0 else min U64MAX a.ceil.toNat
  | F.nan => 0
  | F.inf => U64MAX
  | F.ninf => 0

/-- `mus_calc_n_conservative` from `src/lib.rs`. -/
def mus_calc_n_conservative (gq : ℚ → ℚ → ℚ)
    (confidence_level te ee bv : F) : Except MusError ℕ := do
  let pct_ratio := ee.div te
  let f ← mus_factor gq confidence_level pct_ratio
  let conf_factor : ℚ := ((f * 100).ceil : ℚ) / 100
  pure (ceilCastUsize (((F.fin conf_factor).div te).mul bv))

/-- The percentage resolution of `mus_planning` (src/lib.rs lines 217-220):
when `errors_as_pct` is set and both errors are finite they are scaled by
the total book value. -/
def resolveErrors (opts : PlanningOptions) (bv : F) : F × F :=
  if opts.errors_as_pct && opts.tolerable_error.isFiniteB &&
      opts.expected_error.isFiniteB then
    (opts.tolerable_error.mul bv, opts.expected_error.mul bv)
  else (opts.tolerable_error, opts.expected_error)

/-- The crossing-search loop of `mus_planning` (src/lib.rs lines 251-256):
the first `i` whose required draw count `n_i` satisfies
`n_i * expected_error / book_value <= i`.  The source loop has no iteration
cap (it terminates because `n_i` is bounded); exhausting the model fuel
yields a `Calculation` error the real program never returns. -/
def findCross (alpha te av : F) (e b : ℚ) : ℕ → ℕ → Except MusError ℕ
  | 0, _ =>
    Except.error (MusError.calculation ("crossing search fuel exhausted (model)"))
  | fuel + 1, i => do
    let ni ← calculate_n_hyper i alpha te av
    if (ni : ℚ) * e / b ≤ (i : ℚ) then pure i
    else findCross alpha te av e b fuel (i + 1)

/-- The final checks on the interpolated sample size (src/lib.rs lines
265-276): clamp to the population size, the decrement-by-one special case
when the value lands exactly one above the upper bracket, and the
plausibility check. -/
def interpChecks (n_opt ni nip1 num_items : ℕ) : Except MusError ℕ :=
  if num_items < n_opt then Except.ok num_items
  else if n_opt = nip1 + 1 then Except.ok (n_opt - 1)
  else if n_opt < ni ∨ nip1 < n_opt then
    Except.error (MusError.calculation ("n.optimal not plausible"))
  else Except.ok n_opt

/-- The `n_optimal` computation of `mus_planning` (src/lib.rs lines
235-279).  `te` and `ee` are the resolved tolerable and expected errors;
`bv` is the total book value.  In every caller-reachable use of the rational
divisions below `bv` is finite and positive (otherwise an earlier
`calculate_n_hyper` has already failed), so exact rational division is
faithful. -/
def nOptimal (fuel : ℕ) (conf te ee bv : F) (num_items : ℕ) :
    Except MusError ℕ :=
  let alpha := (F.fin 1).sub conf
  if bv.ble te = true then
    -- tolerable_error >= book_value: no sampling necessary (warning), n = 0
    Except.ok 0
  else do
    let h0 ← calculate_n_hyper 0 alpha te bv
    if h0 < 1 then
      Except.error (MusError.calculation
        ("Undefined: if 0 errors occur, sample size must be positive"))
    else do
      let hN ← calculate_n_hyper num_items alpha te bv
      if 0 < (hN : ℚ) * ee.toRat / bv.toRat - (num_items : ℚ) then
        -- sample size must exceed population items: audit everything (warning)
        Except.ok num_items
      else if ee == F.fin 0 then
        calculate_n_hyper 0 alpha te bv
      else do
        let i ← findCross alpha te bv ee.toRat bv.toRat fuel 0
        if i = 0 then
          calculate_n_hyper 0 alpha te bv
        else do
          let ni ← calculate_n_hyper (i - 1) alpha te bv
          let nip1 ← calculate_n_hyper i alpha te bv
          if nip1 = ni then
            -- IEEE: nip1 - ni is +0.0, so the denominator is +inf (passing
            -- the non-positivity check), the interpolation evaluates to NaN
            -- and `NaN as usize` is 0
            interpChecks 0 ni nip1 num_items
          else
            let denom : ℚ := 1 / ((nip1 : ℚ) - (ni : ℚ)) - ee.toRat / bv.toRat
            if denom ≤ 0 then
              Except.error (MusError.calculation
                ("denominator non-positive in interpolation"))
            else
              let nq : ℚ :=
                (((ni : ℚ) / ((nip1 : ℚ) - (ni : ℚ))) - ((i : ℚ) - 1)) / denom
              let nc : ℤ := nq.ceil
              interpChecks (if nc < 0 then 0 else nc.toNat) ni nip1 num_items

/-- The tail of `mus_planning` after the input guards (src/lib.rs lines
235-301): the `n_optimal` computation, the `n_min` floor, the conservative
alternative, and the construction of the `Plan`. -/
def planningCore (gq : ℚ → ℚ → ℚ) (fuel : ℕ) (data : List F)
    (opts : PlanningOptions) (bv : F) (num_items : ℕ) (te ee : F) :
    Except MusError Plan := do
  let nopt ← nOptimal fuel opts.confidence_level te ee bv num_items
  let n1 := max nopt opts.n_min
  let n_final ←
    if opts.conservative then do
      let ncons ← mus_calc_n_conservative gq opts.confidence_level te ee bv
      pure (max n1 ncons)
    else pure n1
  let interval := if n_final = 0 then F.inf else bv.div (F.fin (n_final : ℚ))
  let tol_taint :=
    if bv == F.fin 0 then F.fin 0 else (ee.div bv).mul (F.fin (n_final : ℚ))
  pure
    { data := data
      col_name_book_values := opts.col_name_book_values
      confidence_level := opts.confidence_level
      tolerable_error := te
      expected_error := ee
      book_value := bv
      n := n_final
      high_value_threshold := interval
      tolerable_taintings := tol_taint
      combined := opts.combined }

/-- `mus_planning` from `src/lib.rs`. -/
def mus_planning (gq : ℚ → ℚ → ℚ) (fuel : ℕ) (book_values : List F)
    (opts : PlanningOptions) : Except MusError Plan :=
  if book_values.isEmpty then
    Except.error (MusError.invalidInput ("data must contain at least one item"))
  else if ¬((F.fin 0).blt opts.confidence_level = true ∧
        opts.confidence_level.blt (F.fin 1) = true) then
    Except.error (MusError.invalidInput ("confidence.level must be in (0,1)"))
  else
    let bv := sum_nonneg book_values
    let num_items := book_values.length
    let r := resolveErrors opts bv
    let te := r.1
    let ee := r.2
    if ¬(te.isFiniteB = true ∧ (F.fin 0).blt te = true) then
      Except.error (MusError.invalidInput ("tolerable.error must be > 0"))
    else if ¬(ee.isFiniteB = true ∧ (F.fin 0).ble ee = true) then
      Except.error (MusError.invalidInput ("expected.error must be >= 0"))
    else if num_items ≤ opts.n_min then
      Except.error (MusError.invalidInput ("n.min must be < number of items"))
    else planningCore gq fuel book_values opts bv num_items te ee

/-- The interval-stabilisation loop of `mus_extraction` under
`obey_n_as_min` (src/lib.rs lines 317-331).  State: the current interval
and the current partition (high values, sampling population), which is
always the partition of `data` by the current interval.  The second break
(the strict-equality test after repartitioning, line 330) is unreachable
but kept for fidelity.  The source loop has no iteration cap; exhausting
the model fuel yields a `Calculation` error the real program never
returns. -/
def stabLoop (n : ℕ) (data : List F) :
    ℕ → F → List F → List F → Except MusError (List F × List F × F)
  | 0, _, _, _ =>
    Except.error (MusError.calculation ("interval stabilisation fuel exhausted (model)"))
  | fuel + 1, interval, hv, sp =>
    let old := interval
    let pop_sum := sumF sp
    if n ≤ hv.length then
      Except.error (MusError.calculation
        ("no items left for sampling after removing high values"))
    else
      let denom : ℕ := n - hv.length
      let interval2 := pop_sum.div (F.fin (denom : ℚ))
      if ((interval2.sub old).fabs).ble (F.fin 0) = true then
        Except.ok (hv, sp, interval2)
      else
        let hv2 := data.filter (fun v => interval2.ble v)
        let sp2 := data.filter (fun v => !(interval2.ble v))
        if (interval2.sub old).fabs == F.fin 0 then Except.ok (hv2, sp2, interval2)
        else stabLoop n data fuel interval2 hv2 sp2

/-- The cumulative monetary-unit sums of `mus_extraction` (src/lib.rs lines
363-369): each value is rounded to a `u64` unit count and accumulated with
`u64::saturating_add`. -/
def buildCum : List F → ℕ → List ℕ
  | [], _ => []
  | v :: vs, running =>
    let r := satAdd64 running (round_to_u64 v)
    r :: buildCum vs r

/-- The inner binary search of `mus_extraction` (src/lib.rs lines 376-381),
rewritten from the `isize` cursors `lo = a - 1`, `hi = b - 1` of the source
to natural cursors `a`, `b`; the returned index is the final `hi + 1 = b`.
The loop always terminates because the interval shrinks; `findIntervalIdx`
supplies the sufficient fuel. -/
def lowerBound (cum : List ℕ) (u : ℕ) : ℕ → ℕ → ℕ → ℕ
  | 0, _, b => b
  | fuel + 1, a, b =>
    if a < b then
      let mid := a + (b - a) / 2
      if cum.getD mid 0 < u then lowerBound cum u fuel (mid + 1) b
      else lowerBound cum u fuel a mid
    else b

/-- The `findInterval` equivalent of `mus_extraction`: the index the binary
search selects for hit position `u`. -/
def findIntervalIdx (cum : List ℕ) (u : ℕ) : ℕ :=
  lowerBound cum u (cum.length + 1) 0 cum.length

/-- The sampling-unit grid of `mus_extraction` (src/lib.rs lines 356-360):
`round(start + j * grid_step)` for `j = 0 ..= draws`, clamped to 0 and cast
to `u64`. -/
def gridUnits (start grid_step : F) (draws : ℕ) : List ℕ :=
  (List.range (draws + 1)).map (fun (j : ℕ) =>
    let x := (start.add ((F.fin (j : ℚ)).mul grid_step)).roundR
    if x.ble (F.fin 0) = true then 0 else castU64 x)

/-- The start-point resolution when no explicit start point is given
(src/lib.rs lines 339-352): the seed is the explicit one when supplied,
otherwise the time-derived one, and the seeded generator draws from
`[0, interval]`. -/
def resolveStart (rngDraw : ℕ → F → F) (timeSeed : ℕ) (seed : Option ℕ)
    (interval : F) : F :=
  rngDraw (seed.getD timeSeed) interval

/-- The straight-line tail of `mus_extraction` after the partition and the
start point have been produced (src/lib.rs lines 354-411): grid, cumulative
sums, retention, selection, reassessed interval, and the `Extraction`
record. -/
def extractionBody (plan : Plan) (opts : ExtractionOptions)
    (hv sp : List F) (interval start : F) : Extraction :=
  let draws := plan.n - hv.length
  let grid_step := ((interval.mul (F.fin 100)).roundR).div (F.fin 100)
  let units0 := gridUnits start grid_step draws
  let cum := buildCum sp 0
  let pop_sum_u := cum.getLast?.getD 0
  let units := units0.filter (fun u => decide (u ≤ pop_sum_u))
  let sample := units.filterMap (fun u =>
    let idx := findIntervalIdx cum u
    if cum.length ≤ idx then none
    else some
      { book_value := sp.getD idx (F.fin 0)
        mus_hit := u
        cum_before := if idx = 0 then 0 else cum.getD (idx - 1) 0
        cum_after := cum.getD idx 0 })
  let pop_sum := sumF sp
  let sampling_interval :=
    if sample.length = 0 then F.inf
    else pop_sum.div (F.fin (sample.length : ℚ))
  { plan := plan
    start_point := start
    seed := opts.seed
    obey_n_as_min := opts.obey_n_as_min
    high_values := hv
    sample_population := sp.zip cum
    sampling_interval := sampling_interval
    sample := sample
    extensions := 0
    n_qty := [sample.length]
    combined := opts.combined }

/-- `mus_extraction` from `src/lib.rs`. -/
def mus_extraction (rngDraw : ℕ → F → F) (timeSeed : ℕ) (fuel : ℕ)
    (plan : Plan) (opts : ExtractionOptions) : Except MusError Extraction :=
  if plan.n = 0 then
    Except.error (MusError.invalidInput ("plan.n must be > 0 for extraction"))
  else do
    let hv0 := plan.data.filter (fun v => plan.high_value_threshold.ble v)
    let sp0 := plan.data.filter (fun v => !(plan.high_value_threshold.ble v))
    let part ←
      if opts.obey_n_as_min then
        stabLoop plan.n plan.data fuel plan.high_value_threshold hv0 sp0
      else pure (hv0, sp0, plan.high_value_threshold)
    let start ←
      match opts.start_point with
      | some s =>
        if ¬((F.fin 0).ble s = true ∧ s.ble part.2.2 = true) then
          Except.error (MusError.invalidInput ("start.point must be in [0, interval]"))
        else pure s
      | none => pure (resolveStart rngDraw timeSeed opts.seed part.2.2)
    pure (extractionBody plan opts part.1 part.2.1 part.2.2 start)

/-- Stable insertion into a sorted list, the building block of `sortLe`. -/
def insertLe (x : ℚ) : List ℚ → List ℚ
  | [] => [x]
  | y :: ys => if x ≤ y then x :: y :: ys else y :: insertLe x ys

/-- Stable comparison sort, modelling `sort_by(partial_cmp)` in
`pps_systematic_indices`.  On the threshold lists the source sorts (which
are totally ordered `f64` values) every stable comparison sort computes the
same list, so the choice of algorithm is immaterial. -/
def sortLe : List ℚ → List ℚ
  | [] => []
  | x :: xs => insertLe x (sortLe xs)

/-- The inner `while` of the sweep in `pps_systematic_indices`
(src/sampling.rs lines 258-263): consume every leading threshold that is at
most `cum`, pushing the current index `i` for each consumed threshold that
is strictly above `prev`; return the pushed indices and the remaining
thresholds. -/
def consume (prev cum : ℚ) (i : ℕ) : List ℚ → List ℕ × List ℚ
  | [] => ([], [])
  | t :: ts =>
    if t ≤ cum then
      let r := consume prev cum i ts
      (if prev < t then i :: r.1 else r.1, r.2)
    else ([], t :: ts)

/-- The cumulative sweep of `pps_systematic_indices` (src/sampling.rs lines
252-265): walk the amounts, accumulating `v.max(0.0)`, assigning to each
item the thresholds that fall inside its cumulative span, and stopping once
no thresholds remain. -/
def sweep : List ℚ → ℕ → ℚ → List ℚ → List ℕ
  | [], _, _, _ => []
  | v :: vs, i, cum, thr =>
    match thr with
    | [] => []
    | _ :: _ =>
      let cum2 := cum + max v 0
      let r := consume cum cum2 i thr
      r.1 ++ sweep vs (i + 1) cum2 r.2

/-- `pps_systematic_indices` from `src/sampling.rs`.  The uniform draw
`rng.random_range(0.0..interval)` is modelled by the explicit `start`
parameter (theorems quantify over `0 <= start < interval`); the amounts are
modelled as exact rationals (the routine is only reached with finite parsed
amounts). -/
def pps_systematic_indices (amounts : List ℚ) (n : ℕ) (start : ℚ) : List ℕ :=
  if n = 0 ∨ amounts = [] then []
  else
    let total := amounts.sum
    if total ≤ 0 then []
    else
      let interval := total / (n : ℚ)
      let thresholds := sortLe ((List.range n).map (fun (i : ℕ) => start + (i : ℚ) * interval))
      sweep amounts 0 0 thresholds

/-! Basic facts about the `F` operations on finite values. -/

theorem F.blt_fin_iff {a b : ℚ} : ((F.fin a).blt (F.fin b) = true) ↔ a < b := by
  simp [F.blt]

theorem F.ble_fin_iff {a b : ℚ} : ((F.fin a).ble (F.fin b) = true) ↔ a ≤ b := by
  simp [F.ble]

theorem F.toRat_fin (a : ℚ) : (F.fin a).toRat = a := rfl

theorem F.eq_fin_of_isFiniteB {x : F} (h : x.isFiniteB = true) :
    x = F.fin x.toRat := by
  cases x <;> simp [F.isFiniteB, F.toRat] at h ⊢

theorem F.div_fin_pos {a b : ℚ} (hb : 0 < b) :
    (F.fin a).div (F.fin b) = F.fin (a / b) := by
  simp [F.div, hb.ne.symm]

/-! Concrete instances used by the closed theorems below. -/

/-- A trivial stand-in for the Gamma inverse CDF, for runs that never reach
the conservative sizing. -/
def gqOne : ℚ → ℚ → ℚ := fun _ _ => 1

/-- A trivial stand-in for the seeded random draw, for runs with an explicit
start point. -/
def rngOne : ℕ → F → F := fun _ _ => F.fin 1

/-- Baseline planning options: confidence 0.9, tolerable error 3, expected
error 0, no floor, no flags. -/
def optsBase : PlanningOptions :=
  { col_name_book_values := "book.value"
    confidence_level := F.fin (9/10)
    tolerable_error := F.fin 3
    expected_error := F.fin 0
    n_min := 0
    errors_as_pct := false
    conservative := false
    combined := false }

/-- Extraction options with an explicit start point and no stabilisation. -/
def optsStart (s : ℚ) : ExtractionOptions :=
  { start_point := some (F.fin s), seed := none
    obey_n_as_min := false, combined := false }

/-- A plan with three items of 100, `n = 2` and threshold 101 (so no high
values): the grid then produces three selectable hits. -/
def planThree : Plan :=
  { data := [F.fin 100, F.fin 100, F.fin 100]
    col_name_book_values := "bv"
    confidence_level := F.fin (9/10)
    tolerable_error := F.fin 1
    expected_error := F.fin 0
    book_value := F.fin 300
    n := 2
    high_value_threshold := F.fin 101
    tolerable_taintings := F.fin 0
    combined := false }

/-- A plan with two items of 10, `n = 1` and threshold 100, used to expose
the rounding convention on hit positions. -/
def planRound : Plan :=
  { planThree with data := [F.fin 10, F.fin 10], n := 1
                   high_value_threshold := F.fin 100 }

/-- A plan with a single item of 100, `n = 1` and threshold 1000, used to
expose the behaviour of a hit at the final cumulative sum. -/
def planLast : Plan :=
  { planThree with data := [F.fin 100], n := 1
                   high_value_threshold := F.fin 1000 }

/-- Round to nearest with ties to even (the convention of R's `round`, which
the source documents itself as following, and which the specification
ascribes to hit positions). -/
def roundHalfEven (x : ℚ) : ℤ :=
  let f := x.floor
  let r := x - (f : ℚ)
  if r < 1/2 then f
  else if 1/2 < r then f + 1
  else if f % 2 = 0 then f else f + 1

/-- C1 counterexample: extraction can return more than `plan.n` sample
items.  On the plan with data `[100, 100, 100]`, `n = 2`, threshold 101 and
start point 0, extraction succeeds and the sample has 3 items, exceeding
`plan.n = 2` (the grid has `n - |high values| + 1` positions and here every
one of them lands inside the population). -/
theorem c1_sample_can_exceed_plan_n :
    (mus_extraction rngOne 0 10 planThree (optsStart 0)).toOption.map
        (fun e => e.sample.length) = some 3 ∧ planThree.n = 2 := by
  constructor
  · decide
  · rfl

/-- C4: the hit positions are rounded half away from zero (Rust
`f64::round`), not half to even as the specification and the source's own
comment on `round_to_u64` state.  On the plan `[10, 10]`, `n = 1`,
threshold 100 and start point 2.5, the code produces the monetary-unit hit
3, while rounding 2.5 half-to-even gives 2. -/
theorem c4_hits_round_half_away_from_zero :
    (mus_extraction rngOne 0 10 planRound (optsStart (5/2))).toOption.map
        (fun e => e.sample.map ExtractedItem.mus_hit) = some [3]
      ∧ roundHalfEven (5/2) = 2
      ∧ (F.fin (5/2)).roundR = F.fin 3 := by
  refine ⟨by decide, by decide, by decide⟩

/-- C5 counterexample: a hit that falls exactly at the final cumulative
monetary-unit sum is selected, not dropped.  On the plan with the single
item 100 and start point 100, the only retained hit is `u = 100`, equal to
the final cumulative sum 100, and it yields a sample item (bounds 0 and
100). -/
theorem c5_hit_at_final_cum_selected :
    (mus_extraction rngOne 0 10 planLast (optsStart 100)).toOption.map
        (fun e => (e.sample.map (fun it => (it.mus_hit, it.cum_before, it.cum_after)),
                   e.sample_population.map Prod.snd))
      = some ([(100, 0, 100)], [100]) := by
  decide

/-- C6 counterexample: `pps_systematic_indices` can return duplicate
indices, so the returned list is not strictly increasing.  On amounts
`[10, 1]` with `n = 2` and offset 1 (inside `[0, interval) = [0, 5.5)`),
both thresholds 1 and 6.5 fall inside the first item's span and the result
is `[0, 0]`. -/
theorem c6_duplicate_indices :
    pps_systematic_indices [10, 1] 2 1 = [0, 0]
      ∧ (0 : ℚ) ≤ 1 ∧ (1 : ℚ) < (10 + 1) / 2
      ∧ ¬ List.Chain' (· < ·) (pps_systematic_indices [10, 1] 2 1) := by
  refine ⟨by decide, by norm_num, by norm_num, ?_⟩
  rw [show pps_systematic_indices [10, 1] 2 1 = [0, 0] from by decide]
  simp [List.chain'_cons]

/-- C8: the computed sample size is not monotone in the expected error.
On book values `[5, 5]` with confidence 0.9 and tolerable error 3, expected
error 0 plans `n = 5` (the zero-expected-error branch returns the
hypergeometric size without the population-size cap every other branch
applies), while expected error 4 plans `n = 2`: increasing the expected
error decreased `n`. -/
theorem c8_n_not_monotone_in_expected_error :
    (mus_planning gqOne 100 [F.fin 5, F.fin 5] optsBase).toOption.map Plan.n
        = some 5
      ∧ (mus_planning gqOne 100 [F.fin 5, F.fin 5]
            { optsBase with expected_error := F.fin 4 }).toOption.map Plan.n
        = some 2
      ∧ (0 : ℚ) ≤ 0 ∧ (0 : ℚ) ≤ 4 ∧ ¬ (5 : ℕ) ≤ 2 := by
  refine ⟨by decide, by decide, by norm_num, by norm_num, by decide⟩

/-- C2 counterexample: `Plan.n = 0` is not equivalent to the tolerable
error being at least the book value: a positive `n_min` floor forces
`n > 0` even when the tolerable error reaches the total book value.  On
`[5, 5]` with tolerable error 10 (= book value) and `n_min = 1`, planning
succeeds with `n = 1`. -/
theorem c2_nmin_breaks_iff :
    (mus_planning gqOne 100 [F.fin 5, F.fin 5]
        { optsBase with tolerable_error := F.fin 10, n_min := 1 }).toOption.map
        (fun p => (p.n, F.ble p.book_value p.tolerable_error))
      = some (1, true) := by
  decide

/-- C3 counterexample: a `+inf` book value is a non-finite value on which
`mus_planning` does fail: the total book value becomes `+inf` and the
hypergeometric sizing rejects it with an `InvalidInput` error, so the value
is not merely warned about and does not contribute zero. -/
theorem c3_posinf_fails_planning :
    isInvalidInputB (mus_planning gqOne 100 [F.fin 1, F.inf]
        { optsBase with tolerable_error := F.fin (1/2) }) = true
      ∧ errorMessage (mus_planning gqOne 100 [F.fin 1, F.inf]
        { optsBase with tolerable_error := F.fin (1/2) })
        = some ("tolerable_error and account_value must be finite and > 0") := by
  refine ⟨by decide, by decide⟩

/-- C10 counterexample: with `conservative` set and expected error at least
the tolerable error, planning does not always fail with an `InvalidInput`
error: on `[0.1, 0.2]` with tolerable error 0.25 and expected error 0.3
(all stated planning preconditions satisfied), the optimal-size computation
fails first with a `Calculation` error (the rounded monetary-unit
population is empty), so the pct-ratio `InvalidInput` rejection is never
reached. -/
theorem c10_calculation_error_preempts :
    isCalculationB (mus_planning gqOne 100 [F.fin (1/10), F.fin (2/10)]
        { optsBase with tolerable_error := F.fin (1/4)
                        expected_error := F.fin (3/10)
                        conservative := true }) = true
      ∧ isInvalidInputB (mus_planning gqOne 100 [F.fin (1/10), F.fin (2/10)]
        { optsBase with tolerable_error := F.fin (1/4)
                        expected_error := F.fin (3/10)
                        conservative := true }) = false := by
  refine ⟨by decide, by decide⟩

/-- C7: extraction is deterministic under an explicit seed.  When no start
point is given and the seed `s` is supplied, the result of `mus_extraction`
does not depend on the time-derived fallback seed, and any two generators
that agree at seed `s` (in particular, the same generator twice) produce
identical extractions — same `start_point`, same `sample`, and every other
field. -/
theorem c7_extraction_deterministic (rng1 rng2 : ℕ → F → F)
    (t1 t2 fuel : ℕ) (plan : Plan) (o : ExtractionOptions) (s : ℕ)
    (hsp : o.start_point = none) (hs : o.seed = some s)
    (hagree : ∀ i, rng1 s i = rng2 s i) :
    mus_extraction rng1 t1 fuel plan o = mus_extraction rng2 t2 fuel plan o := by
  unfold mus_extraction
  simp only [hsp, hs, resolveStart, Option.getD_some, hagree]

/-- C7 witness: on a concrete plan and options with seed 5 and no start
point, the two calls agree. -/
theorem c7_extraction_deterministic_witness :
    mus_extraction (fun n x => if n = 5 then x else F.nan) 17 10 planThree
        { start_point := none, seed := some 5, obey_n_as_min := false, combined := false }
      = mus_extraction (fun n x => if n = 5 then x else F.fin 3) 99 10 planThree
        { start_point := none, seed := some 5, obey_n_as_min := false, combined := false } := by
  exact c7_extraction_deterministic _ _ 17 99 10 planThree _ 5 rfl rfl
    (fun i => by simp)

/-- C9: whenever one of the stated preconditions is violated — empty data,
confidence level outside (0,1), resolved tolerable error not finite and
positive, resolved expected error not finite and non-negative, or sample
floor at least the population size — `mus_planning` fails with an
`InvalidInput` error (never a `Calculation` error and never a silently
defaulted plan). -/
theorem c9_invalid_input_on_precondition_violation
    (gq : ℚ → ℚ → ℚ) (fuel : ℕ) (values : List F) (opts : PlanningOptions)
    (h : values = []
      ∨ ¬((F.fin 0).blt opts.confidence_level = true ∧
            opts.confidence_level.blt (F.fin 1) = true)
      ∨ ¬((resolveErrors opts (sum_nonneg values)).1.isFiniteB = true ∧
            (F.fin 0).blt (resolveErrors opts (sum_nonneg values)).1 = true)
      ∨ ¬((resolveErrors opts (sum_nonneg values)).2.isFiniteB = true ∧
            (F.fin 0).ble (resolveErrors opts (sum_nonneg values)).2 = true)
      ∨ values.length ≤ opts.n_min) :
    ∃ m, mus_planning gq fuel values opts
      = Except.error (MusError.invalidInput m) := by
  simp only [mus_planning]
  split_ifs with h1 h2 h3 h4 h5
  any_goals exact ⟨_, rfl⟩
  exfalso
  rcases h with h | h | h | h | h
  · exact h1 (by simp [h])
  · exact h h2
  · exact h h3
  · exact h h4
  · exact h5 h

/-- C9 witness: on the empty population the failure is an `InvalidInput`
error. -/
theorem c9_invalid_input_witness :
    ∃ m, mus_planning gqOne 1 [] optsBase
      = Except.error (MusError.invalidInput m) :=
  c9_invalid_input_on_precondition_violation gqOne 1 [] optsBase (Or.inl rfl)

/-- `mus_factor` rejects any finite ratio that is not below 1 with an
error (its pct-ratio guard), whatever the confidence level. -/
theorem mus_factor_fails_of_one_le_ratio (gq : ℚ → ℚ → ℚ)
    (conf : F) (r : ℚ) (hr : ¬ r < 1) :
    ∃ e, mus_factor gq conf (F.fin r) = Except.error e := by
  unfold mus_factor
  split_ifs with h1 h2 h3
  any_goals exact ⟨_, rfl⟩
  all_goals exact absurd (F.blt_fin_iff.mp h2.2) hr

/-- `mus_calc_n_conservative` fails whenever the expected error is at least
the (positive) tolerable error: the pct ratio reaches 1 and `mus_factor`
rejects it. -/
theorem mus_calc_n_conservative_fails (gq : ℚ → ℚ → ℚ) (conf bv : F)
    (t e : ℚ) (ht : 0 < t) (hte : t ≤ e) :
    ∃ err, mus_calc_n_conservative gq conf (F.fin t) (F.fin e) bv
      = Except.error err := by
  have hdiv : (F.fin e).div (F.fin t) = F.fin (e / t) := F.div_fin_pos ht
  have hr : ¬ e / t < 1 := by
    rw [not_lt]
    exact (le_div_iff₀ ht).mpr (by simpa using hte)
  obtain ⟨err, herr⟩ := mus_factor_fails_of_one_le_ratio gq conf (e / t) hr
  refine ⟨err, ?_⟩
  simp only [mus_calc_n_conservative, hdiv, herr]
  rfl

/-- C10 (amended): with `conservative` set, planning can never succeed when
the resolved expected error is at least the resolved tolerable error: if the
optimal-size computation has not already failed, the conservative sizing
fails on the pct-ratio guard of `mus_factor` with an `InvalidInput` error.
(The original claim that the failure is always `InvalidInput` is refuted by
`c10_calculation_error_preempts`.) -/
theorem c10_conservative_never_succeeds_when_ee_ge_te
    (gq : ℚ → ℚ → ℚ) (fuel : ℕ) (values : List F) (opts : PlanningOptions)
    (hcons : opts.conservative = true)
    (hge : F.ble (resolveErrors opts (sum_nonneg values)).1
        (resolveErrors opts (sum_nonneg values)).2 = true) :
    isOkB (mus_planning gq fuel values opts) = false := by
  simp only [mus_planning]
  split_ifs with h1 h2 h3 h4 h5
  any_goals rfl
  -- all guards passed: the conservative sizing must fail
  obtain ⟨t, hteq⟩ : ∃ t, (resolveErrors opts (sum_nonneg values)).1 = F.fin t :=
    ⟨_, F.eq_fin_of_isFiniteB h3.1⟩
  obtain ⟨e, heeq⟩ : ∃ e, (resolveErrors opts (sum_nonneg values)).2 = F.fin e :=
    ⟨_, F.eq_fin_of_isFiniteB h4.1⟩
  have ht : 0 < t := F.blt_fin_iff.mp (hteq ▸ h3.2)
  have hte : t ≤ e := by
    rw [hteq, heeq] at hge
    exact F.ble_fin_iff.mp hge
  obtain ⟨err, herr⟩ :=
    mus_calc_n_conservative_fails gq opts.confidence_level
      (sum_nonneg values) t e ht hte
  rw [hteq, heeq]
  unfold planningCore
  cases hno : nOptimal fuel opts.confidence_level (F.fin t) (F.fin e)
      (sum_nonneg values) values.length with
  | error msg => rfl
  | ok nopt =>
    simp only [hcons, if_true, herr, Except.bind]
    rfl

/-- C10 witness: on `[1, 1]` with tolerable error 5 and expected error 5 in
conservative mode, planning fails. -/
theorem c10_conservative_never_succeeds_witness :
    isOkB (mus_planning gqOne 10 [F.fin 1, F.fin 1]
      { optsBase with tolerable_error := F.fin 5, expected_error := F.fin 5
                      conservative := true }) = false :=
  c10_conservative_never_succeeds_when_ee_ge_te gqOne 10 [F.fin 1, F.fin 1]
    { optsBase with tolerable_error := F.fin 5, expected_error := F.fin 5
                    conservative := true } rfl (by decide)

/-! Lemmas on the `pps_systematic_indices` sweep. -/

theorem consume_length (prev cum : ℚ) (i : ℕ) (ts : List ℚ) :
    (consume prev cum i ts).1.length + (consume prev cum i ts).2.length
      ≤ ts.length := by
  induction ts with
  | nil => simp [consume]
  | cons t ts ih =>
    by_cases h : t ≤ cum
    · simp only [consume, if_pos h]
      split_ifs
      · simp only [List.length_cons]
        omega
      · simp only [List.length_cons]
        omega
    · simp [consume, if_neg h]

theorem consume_mem (prev cum : ℚ) (i : ℕ) (ts : List ℚ) :
    ∀ x ∈ (consume prev cum i ts).1, x = i := by
  induction ts with
  | nil => simp [consume]
  | cons t ts ih =>
    by_cases h : t ≤ cum
    · simp only [consume, if_pos h]
      split_ifs
      · intro x hx
        rcases List.mem_cons.mp hx with h' | h'
        · exact h'
        · exact ih x h'
      · exact ih
    · simp [consume, if_neg h]

theorem sweep_mem (vs : List ℚ) (i : ℕ) (cum : ℚ) (thr : List ℚ) :
    ∀ x ∈ sweep vs i cum thr, i ≤ x ∧ x < i + vs.length := by
  induction vs generalizing i cum thr with
  | nil => simp [sweep]
  | cons v vs ih =>
    cases thr with
    | nil => simp [sweep]
    | cons t ts =>
      intro x hx
      simp only [sweep] at hx
      rcases List.mem_append.mp hx with h' | h'
      · have := consume_mem cum (cum + max v 0) i (t :: ts) x h'
        subst this
        simp
      · have := ih (i + 1) (cum + max v 0) _ x h'
        constructor
        · omega
        · simpa [List.length_cons] using by omega

theorem sweep_length (vs : List ℚ) (i : ℕ) (cum : ℚ) (thr : List ℚ) :
    (sweep vs i cum thr).length ≤ thr.length := by
  induction vs generalizing i cum thr with
  | nil => simp [sweep]
  | cons v vs ih =>
    cases thr with
    | nil => simp [sweep]
    | cons t ts =>
      simp only [sweep, List.length_append]
      have h1 := consume_length cum (cum + max v 0) i (t :: ts)
      have h2 := ih (i + 1) (cum + max v 0) (consume cum (cum + max v 0) i (t :: ts)).2
      omega

theorem pairwise_le_of_all_eq (i : ℕ) (l : List ℕ) (h : ∀ x ∈ l, x = i) :
    l.Pairwise (· ≤ ·) := by
  induction l with
  | nil => exact List.Pairwise.nil
  | cons a l ih =>
    refine List.Pairwise.cons ?_ (ih (fun x hx => h x (List.mem_cons_of_mem a hx)))
    intro b hb
    rw [h a (List.mem_cons_self a l), h b (List.mem_cons_of_mem a hb)]

theorem sweep_pairwise (vs : List ℚ) (i : ℕ) (cum : ℚ) (thr : List ℚ) :
    (sweep vs i cum thr).Pairwise (· ≤ ·) := by
  induction vs generalizing i cum thr with
  | nil => simp [sweep]
  | cons v vs ih =>
    cases thr with
    | nil => simp [sweep]
    | cons t ts =>
      simp only [sweep]
      rw [List.pairwise_append]
      refine ⟨pairwise_le_of_all_eq i _ (consume_mem _ _ _ _), ih _ _ _, ?_⟩
      intro a ha b hb
      rw [consume_mem _ _ _ _ a ha]
      exact le_of_lt (lt_of_lt_of_le (Nat.lt_succ_self i)
        (sweep_mem _ _ _ _ b hb).1)

theorem insertLe_length (x : ℚ) (l : List ℚ) :
    (insertLe x l).length = l.length + 1 := by
  induction l with
  | nil => rfl
  | cons y ys ih =>
    simp only [insertLe]
    split_ifs
    · rfl
    · simp [ih]

theorem sortLe_length (l : List ℚ) : (sortLe l).length = l.length := by
  induction l with
  | nil => rfl
  | cons x xs ih => simp [sortLe, insertLe_length, ih]

/-- C6 (amended): for every amount array with positive total, every
`0 < n <= len(amounts)` and every start offset in `[0, interval)`, the index
list returned by `pps_systematic_indices` has length at most `n`, is
nondecreasing (duplicates are possible when one large item covers several
thresholds — they are deduplicated later by the caller), and every index is
within bounds.  (The original "strictly increasing" is refuted by
`c6_duplicate_indices`.) -/
theorem c6_pps_bounds (amounts : List ℚ) (n : ℕ) (start : ℚ)
    (hn : 0 < n) (hlen : n ≤ amounts.length) (htot : 0 < amounts.sum)
    (hs0 : 0 ≤ start) (hs1 : start < amounts.sum / (n : ℚ)) :
    (pps_systematic_indices amounts n start).length ≤ n
      ∧ (pps_systematic_indices amounts n start).Pairwise (· ≤ ·)
      ∧ ∀ x ∈ pps_systematic_indices amounts n start, x < amounts.length := by
  have hne : ¬(n = 0 ∨ amounts = []) := by
    rintro (h | h)
    · omega
    · rw [h] at hlen; simp at hlen; omega
  have hts : ¬ amounts.sum ≤ 0 := not_le.mpr htot
  simp only [pps_systematic_indices, if_neg hne, if_neg hts]
  refine ⟨?_, sweep_pairwise _ _ _ _, ?_⟩
  · calc (sweep amounts 0 0 _).length
        ≤ (sortLe ((List.range n).map
            (fun (i : ℕ) => start + (i : ℚ) * (amounts.sum / (n : ℚ))))).length :=
          sweep_length _ _ _ _
      _ = n := by rw [sortLe_length, List.length_map, List.length_range]
  · intro x hx
    simpa using (sweep_mem _ _ _ _ x hx).2

/-- C6 witness: the bounds hold on the concrete input `[10, 1]`, `n = 2`,
offset 1. -/
theorem c6_pps_bounds_witness :
    (pps_systematic_indices [10, 1] 2 1).length ≤ 2
      ∧ (pps_systematic_indices [10, 1] 2 1).Pairwise (· ≤ ·)
      ∧ ∀ x ∈ pps_systematic_indices [10, 1] 2 1, x < 2 := by
  have h := c6_pps_bounds [10, 1] 2 1 (by norm_num) (by norm_num) (by norm_num)
    (by norm_num) (by norm_num)
  simpa using h

/-! Lemmas on the extraction partition and selection. -/

/-- The break test of the stabilisation loop, `(a - b).abs() <= 0.0`, holds
exactly when the two values are equal finite numbers. -/
theorem F.eq_of_fabs_sub_ble_zero {a b : F}
    (h : ((a.sub b).fabs).ble (F.fin 0) = true) : a = b := by
  cases a with
  | fin x =>
    cases b with
    | fin y =>
      simp only [F.sub, F.fabs, F.ble, decide_eq_true_eq] at h
      have h0 : |x - y| = 0 := le_antisymm h (abs_nonneg _)
      rw [sub_eq_zero.mp (abs_eq_zero.mp h0)]
    | nan => simp [F.sub, F.fabs, F.ble] at h
    | inf => simp [F.sub, F.fabs, F.ble] at h
    | ninf => simp [F.sub, F.fabs, F.ble] at h
  | nan => cases b <;> simp [F.sub, F.fabs, F.ble] at h
  | inf => cases b <;> simp [F.sub, F.fabs, F.ble] at h
  | ninf => cases b <;> simp [F.sub, F.fabs, F.ble] at h

/-- Bind on a success, specialised to `Except MusError` (used to surface
the control flow of the embedded `do` blocks in proofs). -/
theorem exceptBind_ok {α β : Type} (a : α) (f : α → Except MusError β) :
    (Except.ok a >>= f) = f a := rfl

/-- Bind on a failure, specialised to `Except MusError`. -/
theorem exceptBind_error {α β : Type} (m : MusError)
    (f : α → Except MusError β) :
    ((Except.error m : Except MusError α) >>= f) = Except.error m := rfl

/-- `pure` of `Except MusError` is `Except.ok`. -/
theorem exceptPure {α : Type} (a : α) :
    (pure a : Except MusError α) = Except.ok a := rfl

/-- On a successful exit, the stabilisation loop returns the partition of
the data by the returned interval. -/
theorem stabLoop_partition (n : ℕ) (data : List F) :
    ∀ fuel (θ : F) (hv sp : List F) (out : List F × List F × F),
      hv = data.filter (fun v => θ.ble v) →
      sp = data.filter (fun v => !(θ.ble v)) →
      stabLoop n data fuel θ hv sp = Except.ok out →
      out.1 = data.filter (fun v => out.2.2.ble v) ∧
        out.2.1 = data.filter (fun v => !(out.2.2.ble v)) := by
  intro fuel
  induction fuel with
  | zero => intro θ hv sp out _ _ hok; exact Except.noConfusion hok
  | succ fuel ih =>
    intro θ hv sp out hhv hsp hok
    simp only [stabLoop] at hok
    by_cases h1 : n ≤ hv.length
    · rw [if_pos h1] at hok
      exact Except.noConfusion hok
    rw [if_neg h1] at hok
    by_cases h2 : ((((sumF sp).div (F.fin ((n - hv.length : ℕ) : ℚ))).sub θ).fabs).ble
        (F.fin 0) = true
    · rw [if_pos h2] at hok
      injection hok with h'
      have heq := F.eq_of_fabs_sub_ble_zero h2
      subst h'
      rw [← heq] at hhv hsp
      exact ⟨hhv, hsp⟩
    rw [if_neg h2] at hok
    by_cases h3 : ((((sumF sp).div (F.fin ((n - hv.length : ℕ) : ℚ))).sub θ).fabs
        == F.fin 0) = true
    · rw [if_pos h3] at hok
      injection hok with h'
      rw [← h']
      exact ⟨rfl, rfl⟩
    · rw [if_neg h3] at hok
      exact ih _ _ _ out rfl rfl hok

/-- Every successful extraction arises from `extractionBody` applied to the
partition of the plan data by some final interval (the plan's threshold
itself when `obey_n_as_min` is unset). -/
theorem mus_extraction_ok_shape (rngDraw : ℕ → F → F) (timeSeed fuel : ℕ)
    (plan : Plan) (opts : ExtractionOptions) (e : Extraction)
    (hok : mus_extraction rngDraw timeSeed fuel plan opts = Except.ok e) :
    ∃ (interval start : F),
      (opts.obey_n_as_min = false → interval = plan.high_value_threshold) ∧
      e = extractionBody plan opts
        (plan.data.filter (fun v => interval.ble v))
        (plan.data.filter (fun v => !(interval.ble v))) interval start := by
  unfold mus_extraction at hok
  by_cases hn : plan.n = 0
  · rw [if_pos hn] at hok; exact Except.noConfusion hok
  rw [if_neg hn] at hok
  cases hobey : opts.obey_n_as_min with
  | false =>
    rw [hobey] at hok
    simp only [Bool.false_eq_true, if_false, exceptPure, exceptBind_ok] at hok
    cases hsp : opts.start_point with
    | some s =>
      rw [hsp] at hok
      simp only [exceptPure, exceptBind_ok] at hok
      by_cases hg : ¬((F.fin 0).ble s = true ∧
          s.ble plan.high_value_threshold = true)
      · rw [if_pos hg] at hok
        exact Except.noConfusion hok
      · rw [if_neg hg] at hok
        injection hok with h'
        exact ⟨plan.high_value_threshold, s, fun _ => rfl, h'.symm⟩
    | none =>
      rw [hsp] at hok
      simp only [exceptPure, exceptBind_ok] at hok
      injection hok with h'
      exact ⟨plan.high_value_threshold,
        resolveStart rngDraw timeSeed opts.seed plan.high_value_threshold,
        fun _ => rfl, h'.symm⟩
  | true =>
    rw [hobey] at hok
    simp only [if_true] at hok
    cases hstab : stabLoop plan.n plan.data fuel plan.high_value_threshold
        (plan.data.filter (fun v => plan.high_value_threshold.ble v))
        (plan.data.filter (fun v => !(plan.high_value_threshold.ble v))) with
    | error msg =>
      rw [hstab] at hok
      exact Except.noConfusion hok
    | ok part =>
      rw [hstab] at hok
      simp only [exceptBind_ok] at hok
      obtain ⟨hp1, hp2⟩ := stabLoop_partition plan.n plan.data fuel
        plan.high_value_threshold _ _ part rfl rfl hstab
      cases hsp : opts.start_point with
      | some s =>
        rw [hsp] at hok
        simp only [exceptPure, exceptBind_ok] at hok
        by_cases hg : ¬((F.fin 0).ble s = true ∧ s.ble part.2.2 = true)
        · rw [if_pos hg] at hok
          exact Except.noConfusion hok
        · rw [if_neg hg] at hok
          injection hok with h'
          refine ⟨part.2.2, s, fun hco => Bool.noConfusion hco, ?_⟩
          rw [← h', ← hp1, ← hp2]
      | none =>
        rw [hsp] at hok
        simp only [exceptPure, exceptBind_ok] at hok
        injection hok with h'
        refine ⟨part.2.2, resolveStart rngDraw timeSeed opts.seed part.2.2,
          fun hco => Bool.noConfusion hco, ?_⟩
        rw [← h', ← hp1, ← hp2]

theorem buildCum_length (vs : List F) (r : ℕ) :
    (buildCum vs r).length = vs.length := by
  induction vs generalizing r with
  | nil => rfl
  | cons v vs ih => simp [buildCum, ih]

theorem extractionBody_high_values (plan : Plan) (opts : ExtractionOptions)
    (hv sp : List F) (interval start : F) :
    (extractionBody plan opts hv sp interval start).high_values = hv := rfl

theorem extractionBody_pop_fst (plan : Plan) (opts : ExtractionOptions)
    (hv sp : List F) (interval start : F) :
    (extractionBody plan opts hv sp interval start).sample_population.map
      Prod.fst = sp := by
  show (sp.zip (buildCum sp 0)).map Prod.fst = sp
  exact List.map_fst_zip sp _ (by rw [buildCum_length])

theorem extractionBody_sample_length (plan : Plan) (opts : ExtractionOptions)
    (hv sp : List F) (interval start : F) :
    (extractionBody plan opts hv sp interval start).sample.length
      ≤ plan.n - hv.length + 1 := by
  refine le_trans (List.length_filterMap_le _ _) ?_
  refine le_trans (List.length_filter_le _ _) ?_
  simp [gridUnits]

theorem extractionBody_sample_book_values (plan : Plan)
    (opts : ExtractionOptions) (hv sp : List F) (interval start : F) :
    ∀ it ∈ (extractionBody plan opts hv sp interval start).sample,
      it.book_value ∈ sp := by
  intro it hit
  simp only [extractionBody] at hit
  obtain ⟨u, hu, hf⟩ := List.mem_filterMap.mp hit
  by_cases hidx : (buildCum sp 0).length ≤ findIntervalIdx (buildCum sp 0) u
  · rw [if_pos hidx] at hf
    exact Option.noConfusion hf
  · rw [if_neg hidx] at hf
    injection hf with hf'
    rw [← hf']
    have hlt : findIntervalIdx (buildCum sp 0) u < sp.length := by
      rw [← buildCum_length sp 0]; omega
    rw [List.getD_eq_getElem sp (F.fin 0) hlt]
    exact List.getElem_mem hlt

/-- C1 (amended): for every plan with `n > 0` on which extraction succeeds,
the sample has at most `plan.n - |high values| + 1` items (one more than
the claimed `plan.n` is reachable, because the selection grid has
`n - |high values| + 1` positions — see `c1_sample_can_exceed_plan_n`);
the high-value list is exactly the data values at or above the (possibly
re-derived) partition interval, the sampling population is exactly its
complement, and every sampled item's book value comes from the sampling
population, hence no high-value item appears in the sample. -/
theorem c1_extraction_bounds (rngDraw : ℕ → F → F) (timeSeed fuel : ℕ)
    (plan : Plan) (opts : ExtractionOptions) (e : Extraction)
    (hn : 0 < plan.n)
    (hok : mus_extraction rngDraw timeSeed fuel plan opts = Except.ok e) :
    e.sample.length ≤ plan.n - e.high_values.length + 1
      ∧ (∃ θ : F, (opts.obey_n_as_min = false → θ = plan.high_value_threshold)
          ∧ e.high_values = plan.data.filter (fun v => θ.ble v)
          ∧ e.sample_population.map Prod.fst
              = plan.data.filter (fun v => !(θ.ble v)))
      ∧ ∀ it ∈ e.sample, it.book_value ∈ e.sample_population.map Prod.fst := by
  obtain ⟨θ, start, hθ, he⟩ :=
    mus_extraction_ok_shape rngDraw timeSeed fuel plan opts e hok
  subst he
  refine ⟨?_, ⟨θ, hθ, extractionBody_high_values _ _ _ _ _ _, ?_⟩, ?_⟩
  · rw [extractionBody_high_values]
    exact extractionBody_sample_length _ _ _ _ _ _
  · exact extractionBody_pop_fst _ _ _ _ _ _
  · intro it hit
    rw [extractionBody_pop_fst]
    exact extractionBody_sample_book_values _ _ _ _ _ _ it hit

/-- C1 witness: on the plan `[100, 100, 100]`, `n = 2`, threshold 101 with
start point 0, the amended bounds hold (sample length 3 is at most
`2 - 0 + 1`). -/
theorem c1_extraction_bounds_witness :
    ∃ e, mus_extraction rngOne 0 10 planThree (optsStart 0) = Except.ok e
      ∧ e.sample.length ≤ planThree.n - e.high_values.length + 1
      ∧ ∀ it ∈ e.sample, it.book_value ∈ e.sample_population.map Prod.fst := by
  have hok : isOkB (mus_extraction rngOne 0 10 planThree (optsStart 0)) = true := by
    decide
  cases h : mus_extraction rngOne 0 10 planThree (optsStart 0) with
  | error m => rw [h] at hok; exact Bool.noConfusion hok
  | ok e =>
    obtain ⟨h1, _, h3⟩ :=
      c1_extraction_bounds rngOne 0 10 planThree (optsStart 0) e
        (by rw [show planThree.n = 2 from rfl]; omega) h
    exact ⟨e, rfl, h1, h3⟩

/-! Correctness of the cumulative sums and of the inner binary search. -/

theorem satAdd64_le (a b : ℕ) : satAdd64 a b ≤ U64MAX :=
  min_le_right _ _

theorem le_satAdd64 (a b : ℕ) (ha : a ≤ U64MAX) : a ≤ satAdd64 a b :=
  le_min (Nat.le_add_right a b) ha

/-- The cumulative list is nondecreasing from its running prefix. -/
theorem buildCum_chain (vs : List F) (r : ℕ) (hr : r ≤ U64MAX) :
    List.Chain' (· ≤ ·) (r :: buildCum vs r) := by
  induction vs generalizing r with
  | nil => exact List.chain'_singleton r
  | cons v vs ih =>
    simp only [buildCum]
    exact List.Chain'.cons (le_satAdd64 _ _ hr) (ih _ (satAdd64_le _ _))

theorem buildCum_pairwise (vs : List F) :
    (buildCum vs 0).Pairwise (· ≤ ·) := by
  have h := buildCum_chain vs 0 (by simp [U64MAX])
  have := (List.chain'_iff_pairwise.mp h)
  exact (List.pairwise_cons.mp this).2

theorem pairwise_getD_mono {l : List ℕ} (h : l.Pairwise (· ≤ ·))
    {i j : ℕ} (hij : i ≤ j) (hj : j < l.length) :
    l.getD i 0 ≤ l.getD j 0 := by
  rcases Nat.eq_or_lt_of_le hij with rfl | hlt
  · exact le_refl _
  · rw [List.getD_eq_getElem l 0 (lt_trans hlt hj), List.getD_eq_getElem l 0 hj]
    exact List.pairwise_iff_getElem.mp h i j _ _ hlt

/-- Invariant-based correctness of the binary-search loop: with sufficient
fuel, starting from cursors that separate the positions known below `u`
from those known at or above `u`, the loop returns the least index whose
cumulative value reaches `u`. -/
theorem lowerBound_spec (cum : List ℕ) (u : ℕ)
    (hsort : cum.Pairwise (· ≤ ·)) :
    ∀ fuel a b, a ≤ b → b ≤ cum.length → b - a ≤ fuel →
      (∀ j, j < a → cum.getD j 0 < u) →
      (∀ j, b ≤ j → j < cum.length → u ≤ cum.getD j 0) →
      (∀ j, j < lowerBound cum u fuel a b → cum.getD j 0 < u) ∧
        (∀ j, lowerBound cum u fuel a b ≤ j → j < cum.length →
          u ≤ cum.getD j 0) ∧
        lowerBound cum u fuel a b ≤ cum.length := by
  intro fuel
  induction fuel with
  | zero =>
    intro a b hab hb hfuel hlo hhi
    have hab' : a = b := by omega
    subst hab'
    exact ⟨hlo, hhi, hb⟩
  | succ fuel ih =>
    intro a b hab hb hfuel hlo hhi
    by_cases hlt : a < b
    · have hstep : lowerBound cum u (fuel + 1) a b =
          if cum.getD (a + (b - a) / 2) 0 < u then
            lowerBound cum u fuel (a + (b - a) / 2 + 1) b
          else lowerBound cum u fuel a (a + (b - a) / 2) := by
        simp only [lowerBound, if_pos hlt]
      rw [hstep]
      have hmid : a + (b - a) / 2 < b := by omega
      by_cases hcm : cum.getD (a + (b - a) / 2) 0 < u
      · rw [if_pos hcm]
        have hlo' : ∀ j, j < a + (b - a) / 2 + 1 → cum.getD j 0 < u := by
          intro j hj
          rcases Nat.lt_or_ge j a with hja | hja
          · exact hlo j hja
          · exact lt_of_le_of_lt
              (pairwise_getD_mono hsort (by omega) (by omega)) hcm
        exact ih (a + (b - a) / 2 + 1) b (by omega) hb (by omega) hlo' hhi
      · rw [if_neg hcm]
        have hhi' : ∀ j, a + (b - a) / 2 ≤ j → j < cum.length →
            u ≤ cum.getD j 0 := by
          intro j hj hjl
          exact le_trans (not_lt.mp hcm)
            (pairwise_getD_mono hsort hj hjl)
        exact ih a (a + (b - a) / 2) (by omega) (by omega) (by omega) hlo hhi'
    · have hab' : a = b := by omega
      subst hab'
      have hstep : lowerBound cum u (fuel + 1) a a = a := by
        simp only [lowerBound, if_neg hlt]
      rw [hstep]
      exact ⟨hlo, hhi, hb⟩

/-- `findIntervalIdx` returns the least index whose cumulative value is at
least `u`, or the list length when there is none. -/
theorem findIntervalIdx_spec (cum : List ℕ) (u : ℕ)
    (hsort : cum.Pairwise (· ≤ ·)) :
    (∀ j, j < findIntervalIdx cum u → cum.getD j 0 < u) ∧
      (∀ j, findIntervalIdx cum u ≤ j → j < cum.length →
        u ≤ cum.getD j 0) ∧
      findIntervalIdx cum u ≤ cum.length := by
  unfold findIntervalIdx
  exact lowerBound_spec cum u hsort (cum.length + 1) 0 cum.length
    (Nat.zero_le _) (le_refl _) (by omega)
    (by intro j hj; omega)
    (by intro j hj hjl; omega)

/-- A hit at or below the final cumulative sum of a nonempty population is
always covered: the selected index is within bounds. -/
theorem findIntervalIdx_lt_of_le_last (cum : List ℕ) (u : ℕ)
    (hsort : cum.Pairwise (· ≤ ·)) (hne : cum ≠ [])
    (hu : u ≤ cum.getLast?.getD 0) :
    findIntervalIdx cum u < cum.length := by
  obtain ⟨hlo, _, hle⟩ := findIntervalIdx_spec cum u hsort
  rcases Nat.lt_or_ge (findIntervalIdx cum u) cum.length with h | h
  · exact h
  · exfalso
    have hlen : 0 < cum.length := List.length_pos.mpr hne
    have hlast : cum.getLast?.getD 0 = cum.getD (cum.length - 1) 0 := by
      rw [List.getLast?_eq_getElem?, List.getD_eq_getElem?_getD]
    have := hlo (cum.length - 1) (by omega)
    rw [hlast] at hu
    omega

theorem extractionBody_pop_snd (plan : Plan) (opts : ExtractionOptions)
    (hv sp : List F) (interval start : F) :
    (extractionBody plan opts hv sp interval start).sample_population.map
      Prod.snd = buildCum sp 0 := by
  show (sp.zip (buildCum sp 0)).map Prod.snd = buildCum sp 0
  exact List.map_snd_zip sp _ (by rw [buildCum_length])

theorem filterMap_total_map (f : ℕ → Option ExtractedItem) (l : List ℕ)
    (h : ∀ u ∈ l, ∃ it, f u = some it ∧ it.mus_hit = u) :
    (l.filterMap f).map (fun it => it.mus_hit) = l := by
  induction l with
  | nil => rfl
  | cons u l ih =>
    obtain ⟨it, hit, hmu⟩ := h u (List.mem_cons_self u l)
    rw [List.filterMap_cons_some hit, List.map_cons, hmu,
      ih (fun v hv => h v (List.mem_cons_of_mem u hv))]

/-- The per-item selection facts of `extractionBody`: every sampled item is
covered by the least cumulative index reaching its hit, with the recorded
bounds bracketing the hit; and when the sampling population is nonempty the
sampled hits are exactly the grid hits that do not exceed the final
cumulative sum (no retained hit is dropped). -/
theorem extractionBody_sample_spec (plan : Plan) (opts : ExtractionOptions)
    (hv sp : List F) (interval start : F) :
    (∀ it ∈ (extractionBody plan opts hv sp interval start).sample,
        ∃ i, i < (buildCum sp 0).length
          ∧ (∀ j, j < i → (buildCum sp 0).getD j 0 < it.mus_hit)
          ∧ it.mus_hit ≤ (buildCum sp 0).getD i 0
          ∧ it.book_value = sp.getD i (F.fin 0)
          ∧ it.cum_before = (if i = 0 then 0 else (buildCum sp 0).getD (i - 1) 0)
          ∧ it.cum_after = (buildCum sp 0).getD i 0
          ∧ it.cum_before ≤ it.mus_hit)
      ∧ (buildCum sp 0 ≠ [] →
          (extractionBody plan opts hv sp interval start).sample.map
              (fun it => it.mus_hit)
            = (gridUnits start (((interval.mul (F.fin 100)).roundR).div (F.fin 100))
                  (plan.n - hv.length)).filter
                (fun u => decide (u ≤ (buildCum sp 0).getLast?.getD 0)))
      ∧ (buildCum sp 0 = [] →
          (extractionBody plan opts hv sp interval start).sample = []) := by
  have hsort := buildCum_pairwise sp
  refine ⟨?_, ?_, ?_⟩
  · intro it hit
    simp only [extractionBody] at hit
    obtain ⟨u, hu, hf⟩ := List.mem_filterMap.mp hit
    by_cases hidx : (buildCum sp 0).length ≤ findIntervalIdx (buildCum sp 0) u
    · rw [if_pos hidx] at hf
      exact Option.noConfusion hf
    · rw [if_neg hidx] at hf
      injection hf with hf'
      obtain ⟨hlo, hhi, _⟩ := findIntervalIdx_spec (buildCum sp 0) u hsort
      refine ⟨findIntervalIdx (buildCum sp 0) u, by omega, ?_, ?_, ?_, ?_, ?_, ?_⟩
      · intro j hj
        rw [← hf']
        exact hlo j hj
      · rw [← hf']
        exact hhi _ (le_refl _) (by omega)
      · rw [← hf']
      · rw [← hf']
      · rw [← hf']
      · rw [← hf']
        by_cases h0 : findIntervalIdx (buildCum sp 0) u = 0
        · simp [h0]
        · rw [if_neg h0]
          exact le_of_lt (hlo _ (by omega))
  · intro hne
    simp only [extractionBody]
    apply filterMap_total_map
    intro u hu
    have hule : u ≤ (buildCum sp 0).getLast?.getD 0 := by
      have := List.of_mem_filter hu
      simpa using this
    have hlt := findIntervalIdx_lt_of_le_last (buildCum sp 0) u hsort hne hule
    exact ⟨_, by rw [if_neg (by omega)], rfl⟩
  · intro hnil
    simp only [extractionBody]
    rw [List.filterMap_eq_nil_iff]
    intro u hu
    rw [if_pos]
    rw [hnil]
    simp only [List.length_nil]
    omega

/-- C5 (amended): in a successful extraction, every sampled item is the one
at the smallest index `i` with `cumulative[i] >= u` for its hit `u`, with
`cum_before <= u <= cum_after` (and `cum_before < u` whenever `i > 0`); a
hit is dropped exactly when it falls strictly beyond the final cumulative
monetary-unit sum (or the sampling population is empty): the sampled hits
are the grid hits at most that sum, in order.  (The original claim that a
hit at the final cumulative sum is dropped is refuted by
`c5_hit_at_final_cum_selected`.) -/
theorem c5_hit_mapping (rngDraw : ℕ → F → F) (timeSeed fuel : ℕ)
    (plan : Plan) (opts : ExtractionOptions) (e : Extraction)
    (hok : mus_extraction rngDraw timeSeed fuel plan opts = Except.ok e) :
    (∀ it ∈ e.sample,
        ∃ i, i < (e.sample_population.map Prod.snd).length
          ∧ (∀ j, j < i →
              (e.sample_population.map Prod.snd).getD j 0 < it.mus_hit)
          ∧ it.mus_hit ≤ (e.sample_population.map Prod.snd).getD i 0
          ∧ it.book_value = (e.sample_population.map Prod.fst).getD i (F.fin 0)
          ∧ it.cum_before = (if i = 0 then 0
              else (e.sample_population.map Prod.snd).getD (i - 1) 0)
          ∧ it.cum_after = (e.sample_population.map Prod.snd).getD i 0
          ∧ it.cum_before ≤ it.mus_hit ∧ it.mus_hit ≤ it.cum_after)
      ∧ (∃ (interval start : F),
          (opts.obey_n_as_min = false → interval = plan.high_value_threshold)
          ∧ (e.sample_population ≠ [] →
              e.sample.map (fun it => it.mus_hit)
                = (gridUnits start
                      (((interval.mul (F.fin 100)).roundR).div (F.fin 100))
                      (plan.n - e.high_values.length)).filter
                    (fun u => decide
                      (u ≤ (e.sample_population.map Prod.snd).getLast?.getD 0))))
      ∧ (e.sample_population = [] → e.sample = []) := by
  obtain ⟨θ, start, hθ, he⟩ :=
    mus_extraction_ok_shape rngDraw timeSeed fuel plan opts e hok
  subst he
  obtain ⟨hitem, hmap, hnil⟩ := extractionBody_sample_spec plan opts
    (plan.data.filter (fun v => θ.ble v))
    (plan.data.filter (fun v => !(θ.ble v))) θ start
  rw [extractionBody_pop_snd, extractionBody_pop_fst]
  have hziplen : ∀ (l : List F),
      ((extractionBody plan opts (plan.data.filter (fun v => θ.ble v)) l θ
        start).sample_population).length = l.length := by
    intro l
    show (l.zip (buildCum l 0)).length = l.length
    rw [List.length_zip, buildCum_length]
    exact min_self _
  refine ⟨?_, ?_, ?_⟩
  · intro it hit
    obtain ⟨i, h1, h2, h3, h4, h5, h6, h7⟩ := hitem it hit
    exact ⟨i, h1, h2, h3, h4, h5, h6, h7, by rw [h6]; exact h3⟩
  · refine ⟨θ, start, hθ, ?_⟩
    intro hne
    rw [extractionBody_high_values]
    apply hmap
    intro hcum
    apply hne
    have : (plan.data.filter (fun v => !(θ.ble v))).length = 0 := by
      rw [← buildCum_length _ 0, hcum]
      rfl
    have hnil' : plan.data.filter (fun v => !(θ.ble v)) = [] :=
      List.length_eq_zero.mp this
    show (plan.data.filter (fun v => !(θ.ble v))).zip _ = []
    rw [hnil']
    rfl
  · intro hpe
    apply hnil
    have : (plan.data.filter (fun v => !(θ.ble v))).length = 0 := by
      have := congrArg List.length hpe
      rw [hziplen] at this
      simpa using this
    rw [List.length_eq_zero.mp this]
    rfl

/-- C5 witness: the hit-mapping facts hold on the single-item plan with the
hit landing exactly on the final cumulative sum. -/
theorem c5_hit_mapping_witness :
    ∃ e, mus_extraction rngOne 0 10 planLast (optsStart 100) = Except.ok e
      ∧ (e.sample_population = [] → e.sample = [])
      ∧ ∀ it ∈ e.sample,
          it.cum_before ≤ it.mus_hit ∧ it.mus_hit ≤ it.cum_after := by
  have hok : isOkB (mus_extraction rngOne 0 10 planLast (optsStart 100)) = true := by
    decide
  cases h : mus_extraction rngOne 0 10 planLast (optsStart 100) with
  | error m => rw [h] at hok; exact Bool.noConfusion hok
  | ok e =>
    obtain ⟨hitem, _, hnil⟩ :=
      c5_hit_mapping rngOne 0 10 planLast (optsStart 100) e h
    refine ⟨e, rfl, hnil, ?_⟩
    intro it hit
    obtain ⟨i, _, _, _, _, _, _, h7, h8⟩ := hitem it hit
    exact ⟨h7, h8⟩

/-! Lower bounds on the hypergeometric draw search, used for the planning
size characterisation. -/

/-- With zero draws the hypergeometric CDF is 1: no `k = 0` can ever pass
the `CDF <= alpha` test when `alpha < 1`. -/
theorem hgCdf_zero_draws (q m nb : ℕ) : hgCdf q m nb 0 = 1 := by
  rw [hgCdf, Nat.min_zero]
  simp [List.range_succ]

/-- Every `some` answer produced by the binary-search loop is at least 1
when `alpha < 1` (index 0 has CDF 1 and can never be recorded). -/
theorem bsLoop_some_pos (q : ℕ) (alpha : ℚ) (m nb : ℕ) (halpha : alpha < 1) :
    ∀ fuel lo hi ans, (∀ k, ans = some k → 1 ≤ k) →
      ∀ k, bsLoop q alpha m nb fuel lo hi ans = some k → 1 ≤ k := by
  intro fuel
  induction fuel with
  | zero => intro lo hi ans hans k hk; exact hans k hk
  | succ fuel ih =>
    intro lo hi ans hans k hk
    simp only [bsLoop] at hk
    by_cases hle : lo ≤ hi
    · rw [if_pos hle] at hk
      by_cases hcdf : hgCdf q m nb (lo + (hi - lo) / 2) ≤ alpha
      · rw [if_pos hcdf] at hk
        by_cases hm : lo + (hi - lo) / 2 = 0
        · rw [hm, hgCdf_zero_draws] at hcdf
          exact absurd (lt_of_le_of_lt hcdf halpha) (lt_irrefl 1)
        · rw [if_neg hm] at hk
          refine ih lo (lo + (hi - lo) / 2 - 1) (some (lo + (hi - lo) / 2))
            ?_ k hk
          intro k' hk'
          injection hk' with hk''
          omega
      · rw [if_neg hcdf] at hk
        exact ih _ hi ans hans k hk
    · rw [if_neg hle] at hk
      exact hans k hk

/-- Every `some` answer of the binary-search loop is bounded by the initial
upper cursor. -/
theorem bsLoop_some_le (q : ℕ) (alpha : ℚ) (m nb H : ℕ) :
    ∀ fuel lo hi ans, hi ≤ H → (∀ k, ans = some k → k ≤ H) →
      ∀ k, bsLoop q alpha m nb fuel lo hi ans = some k → k ≤ H := by
  intro fuel
  induction fuel with
  | zero => intro lo hi ans _ hans k hk; exact hans k hk
  | succ fuel ih =>
    intro lo hi ans hhi hans k hk
    simp only [bsLoop] at hk
    by_cases hle : lo ≤ hi
    · rw [if_pos hle] at hk
      have hmid : lo + (hi - lo) / 2 ≤ hi := by omega
      by_cases hcdf : hgCdf q m nb (lo + (hi - lo) / 2) ≤ alpha
      · rw [if_pos hcdf] at hk
        by_cases hm : lo + (hi - lo) / 2 = 0
        · rw [if_pos hm] at hk
          injection hk with hk'
          omega
        · rw [if_neg hm] at hk
          refine ih lo (lo + (hi - lo) / 2 - 1) _ (by omega) ?_ k hk
          intro k' hk'
          injection hk' with hk''
          omega
      · rw [if_neg hcdf] at hk
        exact ih _ hi ans (by omega) hans k hk
    · rw [if_neg hle] at hk
      exact hans k hk

/-- A successful `min_draws_for_cdf_at_most_q` result is at least 1 when
`alpha < 1` and the search range is nonempty. -/
theorem min_draws_pos (q : ℕ) (alpha : ℚ) (m nb kmax r : ℕ)
    (halpha : alpha < 1) (hfb : 1 ≤ min kmax (m + nb))
    (h : min_draws_for_cdf_at_most_q q alpha m nb kmax = Except.ok r) :
    1 ≤ r := by
  unfold min_draws_for_cdf_at_most_q at h
  rw [if_neg (by omega)] at h
  injection h with h'
  cases hbs : bsLoop q alpha m nb (min kmax (m + nb) + 2) 0
      (min kmax (m + nb)) none with
  | none => rw [hbs] at h'; simpa using h' ▸ hfb
  | some k =>
    rw [hbs] at h'
    have := bsLoop_some_pos q alpha m nb halpha _ 0 (min kmax (m + nb)) none
      (by intro k' hk'; exact Option.noConfusion hk') k hbs
    simp only [Option.getD_some] at h'
    omega

/-- A successful `min_draws_for_cdf_at_most_q` result never exceeds the
clamped search bound. -/
theorem min_draws_le (q : ℕ) (alpha : ℚ) (m nb kmax r : ℕ)
    (h : min_draws_for_cdf_at_most_q q alpha m nb kmax = Except.ok r) :
    r ≤ min kmax (m + nb) := by
  unfold min_draws_for_cdf_at_most_q at h
  by_cases hz : m + nb = 0
  · rw [if_pos hz] at h; exact Except.noConfusion h
  rw [if_neg hz] at h
  injection h with h'
  cases hbs : bsLoop q alpha m nb (min kmax (m + nb) + 2) 0
      (min kmax (m + nb)) none with
  | none => rw [hbs] at h'; simp at h'; omega
  | some k =>
    rw [hbs] at h'
    have := bsLoop_some_le q alpha m nb (min kmax (m + nb)) _ 0
      (min kmax (m + nb)) none (le_refl _)
      (by intro k' hk'; exact Option.noConfusion hk') k hbs
    simp only [Option.getD_some] at h'
    omega

/-- If the zero-error draw count is positive (which `mus_planning` checks
explicitly), every other draw count the planner computes with the same
parameters is positive too: the search range only widens with the assumed
error count, and index 0 never passes the CDF test. -/
theorem calculate_n_hyper_pos (alpha te av : F) (h0 : ℕ)
    (hc0 : calculate_n_hyper 0 alpha te av = Except.ok h0) (hpos : 1 ≤ h0)
    (q r : ℕ) (hcq : calculate_n_hyper q alpha te av = Except.ok r) :
    1 ≤ r := by
  unfold calculate_n_hyper at hc0 hcq
  split_ifs at hc0 hcq with hg1 hg2
  · have halpha : alpha.toRat < 1 := by
      obtain ⟨hfin, _, hlt⟩ := hg1
      rw [F.eq_fin_of_isFiniteB hfin] at hlt
      exact F.blt_fin_iff.mp hlt
    have hle := min_draws_le 0 alpha.toRat _ _ _ h0 hc0
    have hfb : 1 ≤ min (min (round_to_u64
        (F.fin ((1 - te.toRat / av.toRat) * av.toRat)) + q)
        (round_to_u64 (F.fin av.toRat)))
        (round_to_u64 (F.fin (te.toRat / av.toRat * av.toRat)) +
          round_to_u64 (F.fin ((1 - te.toRat / av.toRat) * av.toRat))) := by
      simp only [ge_iff_le, le_min_iff] at hle ⊢
      omega
    exact min_draws_pos q alpha.toRat _ _ _ r halpha hfb hcq

/-- The final interpolation checks cannot return 0 when the bracketing draw
counts and the population size are positive. -/
theorem interpChecks_pos (x ni nip1 m r : ℕ) (hni : 1 ≤ ni)
    (hnip : 1 ≤ nip1) (hm : 1 ≤ m)
    (h : interpChecks x ni nip1 m = Except.ok r) : 1 ≤ r := by
  unfold interpChecks at h
  split_ifs at h with h1 h2 h3
  all_goals (injection h with h'; omega)

/-- When the tolerable error reaches the book value, the optimal size is 0
without further computation. -/
theorem nOptimal_of_ble (fuel : ℕ) (conf te ee bv : F) (numItems : ℕ)
    (h : bv.ble te = true) :
    nOptimal fuel conf te ee bv numItems = Except.ok 0 := by
  unfold nOptimal
  rw [if_pos h]

/-- When the tolerable error is below the book value, every successful
optimal size is positive. -/
theorem nOptimal_pos (fuel : ℕ) (conf te ee bv : F) (numItems r : ℕ)
    (hble : ¬(bv.ble te = true)) (hitems : 1 ≤ numItems)
    (hok : nOptimal fuel conf te ee bv numItems = Except.ok r) : 1 ≤ r := by
  simp only [nOptimal] at hok
  rw [if_neg hble] at hok
  cases hc0 : calculate_n_hyper 0 ((F.fin 1).sub conf) te bv with
  | error m => rw [hc0] at hok; exact Except.noConfusion hok
  | ok h0 =>
    rw [hc0] at hok
    simp only [exceptBind_ok] at hok
    by_cases hlt : h0 < 1
    · rw [if_pos hlt] at hok; exact Except.noConfusion hok
    rw [if_neg hlt] at hok
    cases hcN : calculate_n_hyper numItems ((F.fin 1).sub conf) te bv with
    | error m => rw [hcN] at hok; exact Except.noConfusion hok
    | ok hN =>
      rw [hcN] at hok
      simp only [exceptBind_ok] at hok
      by_cases hbig : 0 < (hN : ℚ) * ee.toRat / bv.toRat - (numItems : ℚ)
      · rw [if_pos hbig] at hok; injection hok with h'; omega
      rw [if_neg hbig] at hok
      by_cases hee : (ee == F.fin 0) = true
      · rw [if_pos hee] at hok
        injection hok with h'; omega
      rw [if_neg hee] at hok
      cases hcross : findCross ((F.fin 1).sub conf) te bv ee.toRat bv.toRat
          fuel 0 with
      | error m => rw [hcross] at hok; exact Except.noConfusion hok
      | ok i =>
        rw [hcross] at hok
        simp only [exceptBind_ok] at hok
        by_cases hi0 : i = 0
        · rw [if_pos hi0] at hok
          injection hok with h'; omega
        rw [if_neg hi0] at hok
        cases hcni : calculate_n_hyper (i - 1) ((F.fin 1).sub conf) te bv with
        | error m => rw [hcni] at hok; exact Except.noConfusion hok
        | ok niv =>
          rw [hcni] at hok
          simp only [exceptBind_ok] at hok
          cases hcnip : calculate_n_hyper i ((F.fin 1).sub conf) te bv with
          | error m => rw [hcnip] at hok; exact Except.noConfusion hok
          | ok nipv =>
            rw [hcnip] at hok
            simp only [exceptBind_ok] at hok
            have hniv : 1 ≤ niv :=
              calculate_n_hyper_pos _ te bv h0 hc0 (by omega) _ _ hcni
            have hnipv : 1 ≤ nipv :=
              calculate_n_hyper_pos _ te bv h0 hc0 (by omega) _ _ hcnip
            by_cases heq : nipv = niv
            · rw [if_pos heq] at hok
              exact interpChecks_pos _ _ _ _ _ hniv hnipv hitems hok
            rw [if_neg heq] at hok
            by_cases hden : 1 / ((nipv : ℚ) - (niv : ℚ)) -
                ee.toRat / bv.toRat ≤ 0
            · rw [if_pos hden] at hok; exact Except.noConfusion hok
            · rw [if_neg hden] at hok
              exact interpChecks_pos _ _ _ _ _ hniv hnipv hitems hok

/-- C2 (amended): for every non-empty book-value sequence and every
`PlanningOptions` with `n_min = 0` and `conservative = false` on which
`mus_planning` succeeds, the returned plan has `n = 0` if and only if the
resolved tolerable error is at least the total book value.  (For `n_min >
0` the floor forces `n > 0` even when no sampling is necessary — see
`c2_nmin_breaks_iff` — and in conservative mode the Gamma-based size is
likewise added on top.) -/
theorem c2_n_zero_iff_tolerable_ge_book (gq : ℚ → ℚ → ℚ) (fuel : ℕ)
    (values : List F) (opts : PlanningOptions) (p : Plan)
    (hmin : opts.n_min = 0) (hcons : opts.conservative = false)
    (hok : mus_planning gq fuel values opts = Except.ok p) :
    p.n = 0 ↔ p.book_value.ble p.tolerable_error = true := by
  simp only [mus_planning] at hok
  split_ifs at hok with h1 h2 h3 h4 h5
  · have hitems : 1 ≤ values.length := by
      cases values with
      | nil => simp at h1
      | cons v vs => simp
    simp only [planningCore] at hok
    cases hno : nOptimal fuel opts.confidence_level
        (resolveErrors opts (sum_nonneg values)).1
        (resolveErrors opts (sum_nonneg values)).2
        (sum_nonneg values) values.length with
    | error m => rw [hno] at hok; exact Except.noConfusion hok
    | ok nopt =>
      rw [hno] at hok
      simp only [exceptBind_ok, hcons, Bool.false_eq_true, if_false,
        exceptPure, exceptBind_ok] at hok
      injection hok with h'
      rw [← h']
      simp only [hmin, Nat.max_zero]
      constructor
      · intro hz
        by_contra hble
        have := nOptimal_pos fuel opts.confidence_level _ _ _ values.length
          nopt hble hitems hno
        omega
      · intro hble
        rw [nOptimal_of_ble fuel opts.confidence_level _
          (resolveErrors opts (sum_nonneg values)).2 _ values.length hble] at hno
        injection hno with h''
        omega

/-- C2 witness: on `[5, 5]` with tolerable error 3 (below the book value
10), the successful plan has `n = 5 ≠ 0`, matching the iff. -/
theorem c2_n_zero_iff_witness :
    ∃ p, mus_planning gqOne 100 [F.fin 5, F.fin 5] optsBase = Except.ok p
      ∧ (p.n = 0 ↔ p.book_value.ble p.tolerable_error = true)
      ∧ p.n = 5 := by
  have hok : isOkB (mus_planning gqOne 100 [F.fin 5, F.fin 5] optsBase)
      = true := by decide
  cases h : mus_planning gqOne 100 [F.fin 5, F.fin 5] optsBase with
  | error m => rw [h] at hok; exact Bool.noConfusion hok
  | ok p =>
    refine ⟨p, rfl, c2_n_zero_iff_tolerable_ge_book gqOne 100 _ optsBase p
      rfl rfl h, ?_⟩
    have : (mus_planning gqOne 100 [F.fin 5, F.fin 5] optsBase).toOption.map
        Plan.n = some 5 := by decide
    rw [h] at this
    simpa [Except.toOption] using this

/-! Handling of non-finite, zero and negative book values in planning. -/

theorem sum_nonneg_foldl (vs : List F) (q : ℚ) (h : F.inf ∉ vs) :
    vs.foldl (fun acc v => acc.add v.maxZero) (F.fin q)
      = F.fin (vs.foldl (fun acc v => acc + (v.maxZero).toRat) q) := by
  induction vs generalizing q with
  | nil => rfl
  | cons v vs ih =>
    have hv : v ≠ F.inf := fun hv => h (hv ▸ List.mem_cons_self v vs)
    have hvs : F.inf ∉ vs := fun hm => h (List.mem_cons_of_mem v hm)
    cases v with
    | fin a => simpa [F.maxZero, F.add, F.toRat] using ih (q + max a 0) hvs
    | nan => simpa [F.maxZero, F.add, F.toRat] using ih (q + 0) hvs
    | inf => exact absurd rfl hv
    | ninf => simpa [F.maxZero, F.add, F.toRat] using ih (q + 0) hvs

/-- Without a `+inf` entry, the total book value is the exact sum of the
positive finite values (every NaN, `-inf`, zero or negative entry
contributes zero). -/
theorem sum_nonneg_eq_posSum (values : List F) (h : F.inf ∉ values) :
    sum_nonneg values = F.fin (posSum values) :=
  sum_nonneg_foldl values 0 h

/-- The warning scan flags exactly the populations containing a non-finite,
a zero, or a negative value, respectively. -/
theorem valueFlags_spec (values : List F) :
    valueFlags values = (values.any (fun v => !v.isFiniteB),
      values.any (fun v => v == F.fin 0),
      values.any (fun v => v.blt (F.fin 0))) := by
  have aux : ∀ (vs : List F) (b1 b2 b3 : Bool),
      vs.foldl (fun acc v =>
        (acc.1 || !v.isFiniteB, acc.2.1 || v == F.fin 0,
          acc.2.2 || v.blt (F.fin 0))) (b1, b2, b3)
      = (b1 || vs.any (fun v => !v.isFiniteB),
         b2 || vs.any (fun v => v == F.fin 0),
         b3 || vs.any (fun v => v.blt (F.fin 0))) := by
    intro vs
    induction vs with
    | nil => intro b1 b2 b3; simp
    | cons v vs ih =>
      intro b1 b2 b3
      simp only [List.foldl_cons, ih, List.any_cons, Bool.or_assoc]
  simpa using aux values false false false

/-- The sanitised population: every entry that is not a positive finite
value is replaced by 0 (what `mus_planning` effectively treats it as). -/
def sanitize (values : List F) : List F :=
  values.map (fun v =>
    if (F.fin 0).blt v = true ∧ v.isFiniteB = true then v else F.fin 0)

theorem sanitize_no_inf (values : List F) : F.inf ∉ sanitize values := by
  intro h
  obtain ⟨v, _, hv⟩ := List.mem_map.mp h
  by_cases hc : (F.fin 0).blt v = true ∧ v.isFiniteB = true
  · rw [if_pos hc] at hv
    obtain ⟨q, hq⟩ : ∃ q, v = F.fin q := ⟨_, F.eq_fin_of_isFiniteB hc.2⟩
    rw [hq] at hv
    exact F.noConfusion hv
  · rw [if_neg hc] at hv
    exact F.noConfusion hv

theorem posSum_sanitize (values : List F) :
    posSum (sanitize values) = posSum values := by
  suffices aux : ∀ (vs : List F) (q : ℚ),
      (vs.map (fun v => if (F.fin 0).blt v = true ∧ v.isFiniteB = true then v
        else F.fin 0)).foldl (fun acc v => acc + (v.maxZero).toRat) q
      = vs.foldl (fun acc v => acc + (v.maxZero).toRat) q by
    simp only [posSum, sanitize]
    exact aux values 0
  intro vs
  induction vs with
  | nil => intro q; rfl
  | cons v vs ih =>
    intro q
    simp only [List.map_cons, List.foldl_cons]
    have hstep : (if (F.fin 0).blt v = true ∧ v.isFiniteB = true then v
        else F.fin 0).maxZero.toRat = v.maxZero.toRat := by
      by_cases hc : (F.fin 0).blt v = true ∧ v.isFiniteB = true
      · rw [if_pos hc]
      · rw [if_neg hc]
        cases v with
        | fin a =>
          have ha : a ≤ 0 := by
            by_contra hlt
            exact hc ⟨F.blt_fin_iff.mpr (lt_of_not_le hlt), rfl⟩
          simp only [F.maxZero, F.toRat]
          rw [max_self, max_eq_right ha]
        | nan => simp [F.maxZero, F.toRat]
        | inf => simp [F.maxZero, F.toRat]
        | ninf => simp [F.maxZero, F.toRat]
    rw [hstep]
    exact ih (q + v.maxZero.toRat)

theorem sanitize_length (values : List F) :
    (sanitize values).length = values.length := List.length_map _ _

/-- The plan-construction tail of planning depends on the data list only as
an opaque payload stored into `Plan.data`. -/
theorem planningCore_data_irrel (gq : ℚ → ℚ → ℚ) (fuel : ℕ)
    (D D' : List F) (opts : PlanningOptions) (bv : F) (n : ℕ) (te ee : F) :
    planningCore gq fuel D opts bv n te ee
      = (planningCore gq fuel D' opts bv n te ee).map
          (fun p => { p with data := D }) := by
  simp only [planningCore]
  cases hno : nOptimal fuel opts.confidence_level te ee bv n with
  | error m => rfl
  | ok nopt =>
    cases hcons : opts.conservative with
    | false => rfl
    | true =>
      cases hcalc : mus_calc_n_conservative gq opts.confidence_level te ee bv with
      | error m => rfl
      | ok ncons => rfl

/-- C3 (amended): an input sequence may contain NaN, `-inf`, zero or
negative book values (any non-finite value other than `+inf`): planning
does not fail because of them — its entire outcome equals that on the
sequence with those values replaced by 0, except for the stored `data`
payload — they are reported by the warning scan, and they contribute zero
to the total book value, so the computed book value is the sum of the
positive finite values only.  (A `+inf` value, by contrast, makes planning
fail — see `c3_posinf_fails_planning`.) -/
theorem c3_nonpositive_values_warn_only (gq : ℚ → ℚ → ℚ) (fuel : ℕ)
    (values : List F) (opts : PlanningOptions) (hinf : F.inf ∉ values) :
    sum_nonneg values = F.fin (posSum values)
      ∧ valueFlags values = (values.any (fun v => !v.isFiniteB),
          values.any (fun v => v == F.fin 0),
          values.any (fun v => v.blt (F.fin 0)))
      ∧ mus_planning gq fuel values opts
          = (mus_planning gq fuel (sanitize values) opts).map
              (fun p => { p with data := values })
      ∧ ∀ p, mus_planning gq fuel values opts = Except.ok p →
          p.book_value = F.fin (posSum values) := by
  have hbv : sum_nonneg (sanitize values) = sum_nonneg values := by
    rw [sum_nonneg_eq_posSum values hinf,
      sum_nonneg_eq_posSum (sanitize values) (sanitize_no_inf values),
      posSum_sanitize]
  have hempty : (sanitize values).isEmpty = values.isEmpty := by
    cases values with
    | nil => rfl
    | cons v vs => rfl
  have hplan : mus_planning gq fuel values opts
      = (mus_planning gq fuel (sanitize values) opts).map
          (fun p => { p with data := values }) := by
    simp only [mus_planning, hbv, hempty, sanitize_length]
    split_ifs
    any_goals rfl
    exact planningCore_data_irrel gq fuel values (sanitize values) opts _ _ _ _
  refine ⟨sum_nonneg_eq_posSum values hinf, valueFlags_spec values, hplan, ?_⟩
  intro p hok
  simp only [mus_planning] at hok
  split_ifs at hok
  simp only [planningCore] at hok
  cases hno : nOptimal fuel opts.confidence_level
      (resolveErrors opts (sum_nonneg values)).1
      (resolveErrors opts (sum_nonneg values)).2
      (sum_nonneg values) values.length with
  | error m => rw [hno] at hok; exact Except.noConfusion hok
  | ok nopt =>
    rw [hno] at hok
    simp only [exceptBind_ok] at hok
    cases hcons : opts.conservative with
    | false =>
      rw [hcons] at hok
      simp only [Bool.false_eq_true, if_false, exceptPure, exceptBind_ok] at hok
      injection hok with h'
      rw [← h']
      exact sum_nonneg_eq_posSum values hinf
    | true =>
      rw [hcons] at hok
      simp only [if_true] at hok
      cases hcalc : mus_calc_n_conservative gq opts.confidence_level
          (resolveErrors opts (sum_nonneg values)).1
          (resolveErrors opts (sum_nonneg values)).2 (sum_nonneg values) with
      | error m => rw [hcalc] at hok; exact Except.noConfusion hok
      | ok ncons =>
        rw [hcalc] at hok
        simp only [exceptBind_ok, exceptPure] at hok
        injection hok with h'
        rw [← h']
        exact sum_nonneg_eq_posSum values hinf

/-- C3 witness: on `[5, 5, NaN, -inf, 0, -3]` the book value is the sum of
the positive finite entries (10), all three warning flags fire, and the
planning outcome agrees with the sanitised population's. -/
theorem c3_nonpositive_values_warn_only_witness :
    sum_nonneg [F.fin 5, F.fin 5, F.nan, F.ninf, F.fin 0, F.fin (-3)]
        = F.fin (posSum [F.fin 5, F.fin 5, F.nan, F.ninf, F.fin 0, F.fin (-3)])
      ∧ mus_planning gqOne 100
            [F.fin 5, F.fin 5, F.nan, F.ninf, F.fin 0, F.fin (-3)] optsBase
          = (mus_planning gqOne 100 (sanitize
              [F.fin 5, F.fin 5, F.nan, F.ninf, F.fin 0, F.fin (-3)]) optsBase).map
              (fun p => { p with
                data := [F.fin 5, F.fin 5, F.nan, F.ninf, F.fin 0, F.fin (-3)] }) := by
  obtain ⟨h1, _, h3, _⟩ := c3_nonpositive_values_warn_only gqOne 100
    [F.fin 5, F.fin 5, F.nan, F.ninf, F.fin 0, F.fin (-3)] optsBase (by decide)
  exact ⟨h1, h3⟩

end AuditSampling
